import Mathlib

/-!
Verification of the concept-lattice engine of digital-human-memory-cli.

Python strings are modelled as lists of Unicode code points (`Str := List Nat`);
`S` converts a Lean string literal to this representation.  Python`s ASCII-range
case mappings (`str.lower`, `str.capitalize`) are modelled on the ASCII range,
which is the range exercised by every theorem below.  Filesystem paths are
modelled as segment lists.  The sha256 hexdigest used by one variant for
multi-tag keys is modelled by its (injective-in-practice) pre-image string,
prefixed with a marker so that digest keys and verbatim single-tag keys stay
distinct, exactly as 64-hex-character digests are distinct from title tags in
practice.
-/

namespace DHM

/-- A Python string as its list of code points. -/
abbrev Str := List Nat

/-- Code points of a Lean string literal, for concrete test inputs. -/
def S (s : String) : Str := s.data.map Char.toNat

/-- ASCII model of Python lowercasing of one code point. -/
def lowerN (n : Nat) : Nat := if 65 ≤ n ∧ n ≤ 90 then n + 32 else n

/-- ASCII model of Python uppercasing of one code point. -/
def upperN (n : Nat) : Nat := if 97 ≤ n ∧ n ≤ 122 then n - 32 else n

/-- ASCII model of Python str.lower. -/
def pyLower (s : Str) : Str := s.map lowerN

/-- ASCII model of Python str.capitalize: first code point uppercased,
the rest lowercased. -/
def pyCapitalize : Str → Str
  | [] => []
  | c :: cs => upperN c :: cs.map lowerN

/-- Python whitespace test for the code points produced by str.split(). -/
def isWs (n : Nat) : Bool := n == 32 || n == 9 || n == 10 || n == 13 || n == 12 || n == 11

/-- Model of Python str.split() (no argument): split on runs of whitespace,
dropping empty tokens.  The accumulator holds the current word reversed. -/
def splitWsAux : Str → Str → List Str
  | [], acc => if acc.isEmpty then [] else [acc.reverse]
  | c :: rest, acc =>
    if isWs c then
      if acc.isEmpty then splitWsAux rest [] else acc.reverse :: splitWsAux rest []
    else
      splitWsAux rest (c :: acc)

/-- Model of Python str.split() with no argument. -/
def splitWs (s : Str) : List Str := splitWsAux s []

/-- Code point of the tag delimiter, the asterisk. -/
def star : Nat := 42

/-- Model of word.startswith("*") and word.endswith("*") for a token. -/
def isTagToken (w : Str) : Bool := w.head? == some star && w.getLast? == some star

/-- Model of word.replace("*", ""): every asterisk removed. -/
def stripStars (w : Str) : Str := w.filter (fun c => !(c == star))

/-- MemoryPage.extract_concepts_from_title from src/hdm.py (identical in
src/link-memories-single-line-web.py and src/link-memories.py): loop over
whitespace-split words of the title, appending the asterisk-stripped word
whenever the word both starts and ends with an asterisk. -/
def extract_concepts_from_title (title : Str) : List Str :=
  (splitWs title).foldl
    (fun concepts word =>
      if isTagToken word then concepts ++ [stripStars word] else concepts)
    []

/-- The tag-extraction contract as the spec states it: exactly the
whitespace-separated tokens that begin and end with the delimiter, in source
order, without deduplication, delimiter characters removed. -/
def specTagExtraction (title : Str) : List Str :=
  ((splitWs title).filter isTagToken).map stripStars

/-- MemoryConcept.hash_concepts from src/hdm.py: a single tag is its own key,
verbatim; otherwise the tags are capitalized, sorted, and concatenated. -/
def hash_concepts (concepts : List Str) : Str :=
  match concepts with
  | [t] => t
  | ts => ((ts.map pyCapitalize).insertionSort (· ≤ ·)).flatten

/-- Marker code point (the hash sign) standing for application of the sha256
hexdigest in the web variant`s key: the digest is modelled by its pre-image,
marked so digest keys never collide with verbatim single-tag keys. -/
def digestMark : Nat := 35

/-- Code point of the vertical bar separator. -/
def barSep : Nat := 124

/-- MemoryThread.hash_concepts from src/link-memories-single-line-web.py:
a single tag is its own key, verbatim; otherwise the tags are lowercased,
sorted, joined with a vertical bar and digested (digest modelled by the
marked pre-image). -/
def hashW (concepts : List Str) : Str :=
  match concepts with
  | [t] => t
  | ts => digestMark :: (List.intercalate [barSep] ((ts.map pyLower).insertionSort (· ≤ ·)))

/-- Python list(set(a) - set(b)), as used by MemoryConcept.diff_concepts and
MemoryThread.diff_thread: the elements of a absent from b, without duplicates
(the unordered set is modelled in first-occurrence order). -/
def setDiff (a b : List Str) : List Str :=
  (a.filter (fun x => decide (¬x ∈ b))).dedup

/-- One thread record of src/link-memories-single-line-web.py: its concepts
list as constructed, the keys of the threads linked into it (each a superset
of its concepts reached one combination level above), and the ids of the
pages attached to it. -/
structure WThread where
  concepts : List Str
  threads : List Str
  pages : List Str
deriving DecidableEq

/-- The MemoryThreads.threads dictionary, in insertion order. -/
abbrev WSt := List (Str × WThread)

/-- Dictionary lookup. -/
def lookupTh (k : Str) : WSt → Option WThread
  | [] => none
  | (k0, t) :: rest => if k0 = k then some t else lookupTh k rest

/-- MemoryThreads.get_thread: return the existing thread for the key, or
insert a fresh one. -/
def getThreadSt (concepts : List Str) (st : WSt) : WSt :=
  if (lookupTh (hashW concepts) st).isSome then st
  else st ++ [(hashW concepts, ⟨concepts, [], []⟩)]

/-- Update the record stored under a key, if present. -/
def modifyTh (k : Str) (f : WThread → WThread) : WSt → WSt
  | [] => []
  | (k0, t) :: rest => if k0 = k then (k0, f t) :: rest else (k0, t) :: modifyTh k f rest

/-- MemoryThread.add_page: append the page unless already attached. -/
def addPageTh (k pid : Str) (st : WSt) : WSt :=
  modifyTh k (fun t => if pid ∈ t.pages then t else { t with pages := t.pages ++ [pid] }) st

/-- MemoryThread.add_thread: append the linking thread unless already linked. -/
def addThreadTh (k ck : Str) (st : WSt) : WSt :=
  modifyTh k (fun t => if ck ∈ t.threads then t else { t with threads := t.threads ++ [ck] }) st

/-- The body of one combination step of MemoryThreads.recurse_concepts from
src/link-memories-single-line-web.py: get (or create) the combination`s
thread, add the page to it, and link the thread one combination level above
into it. -/
def stepW (pid : Str) (comb : List Str) (child : Option Str) (st : WSt) : WSt :=
  let k := hashW comb
  let st1 := getThreadSt comb st
  let st2 := addPageTh k pid st1
  match child with
  | some ck => addThreadTh k ck st2
  | none => st2

/-- MemoryThreads.recurse_concepts from src/link-memories-single-line-web.py,
with the loop over itertools.combinations(concepts, depth) unrolled into the
combination list: each combination is processed by stepW and, while the depth
exceeds one, recursed into one level down with itself as the linking thread. -/
def recurseCombosW (pid : Str) : Nat → List (List Str) → Option Str → WSt → WSt
  | 0, combos, child, st => combos.foldl (fun st comb => stepW pid comb child st) st
  | 1, combos, child, st => combos.foldl (fun st comb => stepW pid comb child st) st
  | d + 2, combos, child, st =>
    combos.foldl
      (fun st comb =>
        recurseCombosW pid (d + 1) (List.sublistsLen (d + 1) comb)
          (some (hashW comb)) (stepW pid comb child st))
      st

/-- The call MemoryThreads.load_memory_files makes for one page:
recurse_concepts(page, page.concepts, len(page.concepts)). -/
def loadPageW (pid : Str) (tags : List Str) (st : WSt) : WSt :=
  recurseCombosW pid tags.length (List.sublistsLen tags.length tags) none st

/-- Total number of parent-to-child links in the thread graph. -/
def edgeCountW (st : WSt) : Nat := (st.map (fun e => e.2.threads.length)).sum

/-- The keys of the thread dictionary. -/
def keysW (st : WSt) : List Str := st.map Prod.fst

/-- The link keys recorded on the thread stored under a key. -/
def threadsOf (k : Str) (st : WSt) : List Str :=
  match lookupTh k st with
  | some t => t.threads
  | none => []

/-- The concepts list of the thread stored under a key. -/
def conceptsOf (k : Str) (st : WSt) : List Str :=
  match lookupTh k st with
  | some t => t.concepts
  | none => []

/-- The work one combination contributes at a level: its stepW, followed by
the recursion one level down when the depth exceeds one. -/
def levelStep (pid : Str) (d : Nat) (comb : List Str) (child : Option Str) (st : WSt) : WSt :=
  match d with
  | e + 2 =>
    recurseCombosW pid (e + 1) (List.sublistsLen (e + 1) comb)
      (some (hashW comb)) (stepW pid comb child st)
  | _ => stepW pid comb child st

/-- Python exceptions that the modelled code can raise. -/
inductive PyErr where
  /-- NameError: the bare name forward_links in the duplicate-title branch
  of load_memory_files is defined nowhere (only self.forward_links is). -/
  | nameError_forward_links
  /-- NameError: shutil.rmtree is called but shutil is never imported. -/
  | nameError_shutil
  /-- IndexError: indexing position 0 of an empty list. -/
  | indexError
deriving DecidableEq

/-- One loaded page: id (filename stem), title line (markup-stripped), and
the concepts extracted from the title. -/
structure HPage where
  id : Str
  title : Str
  concepts : List Str
deriving DecidableEq

/-- Markdown extension segment suffix. -/
def mdExt : Str := S ".md"

/-- The page`s file path: joined from the memory directory and id.md. -/
def pageFilePath (memDir : List Str) (p : HPage) : List Str := memDir ++ [p.id ++ mdExt]

/-- One MemoryConcept record of src/hdm.py: its concepts list as constructed,
the keys of the concepts linked into it by add_subconcept (each reached one
combination level above, so holding one more tag), and its pages. -/
structure HNode where
  concepts : List Str
  subconcepts : List Str
  pages : List HPage
deriving DecidableEq

/-- The MemoryThreads.concepts dictionary of src/hdm.py, in insertion order. -/
abbrev HSt := List (Str × HNode)

/-- Dictionary lookup for the hdm.py concept dictionary. -/
def lookupH (k : Str) : HSt → Option HNode
  | [] => none
  | (k0, n) :: rest => if k0 = k then some n else lookupH k rest

/-- Update the record stored under a key, if present. -/
def modifyH (k : Str) (f : HNode → HNode) : HSt → HSt
  | [] => []
  | (k0, n) :: rest => if k0 = k then (k0, f n) :: rest else (k0, n) :: modifyH k f rest

/-- MemoryThreads.get_or_create_concept from src/hdm.py. -/
def getOrCreateH (concepts : List Str) (st : HSt) : HSt :=
  if (lookupH (hash_concepts concepts) st).isSome then st
  else st ++ [(hash_concepts concepts, ⟨concepts, [], []⟩)]

/-- MemoryConcept.add_page from src/hdm.py. -/
def addPageH (k : Str) (p : HPage) (st : HSt) : HSt :=
  modifyH k (fun n => if p ∈ n.pages then n else { n with pages := n.pages ++ [p] }) st

/-- MemoryConcept.add_subconcept from src/hdm.py. -/
def addSubH (k ck : Str) (st : HSt) : HSt :=
  modifyH k (fun n => if ck ∈ n.subconcepts then n else { n with subconcepts := n.subconcepts ++ [ck] }) st

/-- MemoryThreads.load_memory_files from src/hdm.py: each eligible page is
attached to the concept node obtained-or-created for its full tag list. -/
def loadPagesH (pages : List HPage) (st : HSt) : HSt :=
  pages.foldl (fun st p => addPageH (hash_concepts p.concepts) p (getOrCreateH p.concepts st)) st

/-- MemoryThreads.recurse_concepts from src/hdm.py: at depth one less than
the node`s concept count, look up (get only, never create) the node of each
combination; when found, link the current node into it as a subconcept and
recurse into it while the depth exceeds one.  The fuel argument models the
Python call stack (the source recursion is not structurally bounded). -/
def recurseH (fuel : Nat) (mainKey : Str) (st : HSt) : HSt :=
  match fuel with
  | 0 => st
  | fuel + 1 =>
    match lookupH mainKey st with
    | none => st
    | some main =>
      let depth := main.concepts.length - 1
      if depth > 0 then
        (List.sublistsLen depth main.concepts).foldl
          (fun st comb =>
            let subKey := hash_concepts comb
            if (lookupH subKey st).isSome then
              let st1 := addSubH subKey mainKey st
              if depth > 1 then recurseH fuel subKey st1 else st1
            else st)
          st
      else st

/-- MemoryThreads construction from src/hdm.py: load all pages, then run
recurse_concepts over every concept value in dictionary order. -/
def buildH (fuel : Nat) (pages : List HPage) : HSt :=
  let st := loadPagesH pages []
  (st.map Prod.fst).foldl (fun st k => recurseH fuel k st) st

/-- Drop components shared by two paths (the common directory walk). -/
def dropCommon : List Str → List Str → (List Str × List Str)
  | a :: as, b :: bs => if a = b then dropCommon as bs else (a :: as, b :: bs)
  | as, bs => (as, bs)

/-- Code point of the slash. -/
def slash : Nat := 47

/-- Model of os.path.relpath(target, start): walk up out of start, then down
into target. -/
def relPath (target start : List Str) : Str :=
  let ts := dropCommon target start
  List.intercalate [slash] (ts.2.map (fun _ => S "..") ++ ts.1)

/-- Markdown line for a child entry: the label linking to a relative path. -/
def subconceptLine (label rel : Str) : Str := S "* [" ++ label ++ S "](./" ++ rel ++ S ")"

/-- Markdown line for a page entry. -/
def pageLine (title rel : Str) : Str := S "* [" ++ title ++ S "](" ++ rel ++ S ")"

/-- The subconcept section of one concept markdown file written by
MemoryThreads.write_web_markdown_files in src/hdm.py: for each subconcept,
diff_concepts computes the set difference subconcept minus this concept, and
position 0 of that list is used as the link label; an empty difference makes
the position-0 access raise IndexError. -/
def subLines (st : HSt) (webdir : List Str) (n : HNode) : List Str → Except PyErr (List Str)
  | [] => .ok []
  | ck :: rest =>
    let subN := (lookupH ck st).getD ⟨[], [], []⟩
    match setDiff subN.concepts n.concepts with
    | [] => .error .indexError
    | label :: _ =>
      let rel := relPath (webdir ++ [ck ++ mdExt]) webdir
      match subLines st webdir n rest with
      | .ok ls => .ok (subconceptLine label rel :: ls)
      | .error e => .error e

/-- The pages section of one concept markdown file. -/
def pgLines (memDir webdir : List Str) (ps : List HPage) : List Str :=
  ps.map (fun p => pageLine p.title (relPath (pageFilePath memDir p) webdir))

/-- One concept markdown file written by write_web_markdown_files: heading,
subconcept entries, page entries. -/
def conceptDoc (st : HSt) (memDir webdir : List Str) (n : HNode) : Except PyErr (List Str) :=
  match subLines st webdir n n.subconcepts with
  | .error e => .error e
  | .ok subs =>
    .ok ((S "# " ++ List.intercalate (S " ") n.concepts) :: subs ++ pgLines memDir webdir n.pages)

/-- MemoryThreads.write_web_markdown_files from src/hdm.py, as the list of
documents it writes: one file per concept, named after the concept key under
the web directory (the README is written alongside and lists single-tag
concepts; it carries no concept content and is omitted from the document
list, which models the per-concept files). -/
def writeWebH (st : HSt) (memDir : List Str) : Except PyErr (List (List Str × List Str)) :=
  let webdir := memDir ++ [S "web"]
  let rec go : HSt → Except PyErr (List (List Str × List Str))
    | [] => .ok []
    | (k, n) :: rest =>
      match conceptDoc st memDir webdir n with
      | .error e => .error e
      | .ok ls =>
        match go rest with
        | .error e => .error e
        | .ok docs => .ok ((webdir ++ [k ++ mdExt], ls) :: docs)
  go st

/-- Filesystem state: existing directories and symlinks (path and target). -/
structure Fs where
  dirs : List (List Str)
  links : List (List Str × Str)
deriving DecidableEq

/-- Filesystem writes performed by the symlink materializer. -/
inductive Act where
  | mkdir (p : List Str)
  | symlink (p : List Str) (target : Str)
  | unlink (p : List Str)
deriving DecidableEq

/-- Path normalization: empty segments vanish when os.path joins and checks
paths (a trailing empty segment is a trailing slash). -/
def normP (p : List Str) : List Str := p.filter (fun s => !(s.isEmpty))

/-- os.path.isdir. -/
def isDirF (fs : Fs) (p : List Str) : Bool := fs.dirs.contains (normP p)

/-- os.path.islink. -/
def isLinkF (fs : Fs) (p : List Str) : Bool := (fs.links.map Prod.fst).contains (normP p)

/-- create_directory from src/hdm.py: mkdir only when the directory is
absent. -/
def createDirF (fs : Fs) (log : List Act) (p : List Str) : Fs × List Act :=
  if isDirF fs p then (fs, log)
  else ({ fs with dirs := fs.dirs ++ [normP p] }, log ++ [.mkdir (normP p)])

/-- create_symlink from src/hdm.py: symlink only when no link is present. -/
def createSymlinkF (fs : Fs) (log : List Act) (p : List Str) (target : Str) : Fs × List Act :=
  if isLinkF fs p then (fs, log)
  else ({ fs with links := fs.links ++ [(normP p, target)] }, log ++ [.symlink (normP p) target])

/-- Strictly-below test for paths. -/
def underF (root p : List Str) : Bool := root.isPrefixOf p && decide (root.length < p.length)

/-- search_files from src/hdm.py: every directory and file path below the
root (os.walk lists both). -/
def searchFilesF (fs : Fs) (root : List Str) : List (List Str) :=
  fs.dirs.filter (fun d => underF root d) ++ (fs.links.map Prod.fst).filter (fun q => underF root q)

/-- The parent directory of a path. -/
def parentF (p : List Str) : List Str := p.dropLast

/-- os.listdir emptiness: no directory or link has this path as parent. -/
def dirEmptyF (fs : Fs) (p : List Str) : Bool :=
  (fs.dirs.filter (fun d => parentF d == p)).isEmpty &&
  ((fs.links.map Prod.fst).filter (fun q => parentF q == p)).isEmpty

/-- Remove a symlink from the filesystem. -/
def removeLinkF (fs : Fs) (p : List Str) : Fs :=
  { fs with links := fs.links.filter (fun e => !(e.1 == p)) }

/-- The cleanup loop at the end of MemoryThreads.create_symlinks: remaining
snapshot entries that are links are unlinked; an entry that is a directory
and is empty reaches shutil.rmtree, and the bare name shutil is undefined in
src/hdm.py, so the loop raises NameError there; non-empty directories and
vanished entries are skipped. -/
def cleanupF : List (List Str) → Fs → List Act → Except PyErr (Fs × List Act)
  | [], fs, log => .ok (fs, log)
  | p :: rest, fs, log =>
    if isLinkF fs p then cleanupF rest (removeLinkF fs p) (log ++ [.unlink p])
    else if isDirF fs p then
      if dirEmptyF fs p then .error .nameError_shutil
      else cleanupF rest fs log
    else cleanupF rest fs log

/-- The length of the joined path string, up to the constant one; Python
sorts the cleanup list by descending string length. -/
def pathStrLen (p : List Str) : Nat := (p.map List.length).sum + p.length

/-- Mutable state threaded through the create_symlinks loop: filesystem,
remaining old-files snapshot, write log. -/
structure SymSt where
  fs : Fs
  old : List (List Str)
  log : List Act
deriving DecidableEq

/-- The subconcept block inside the concept loop of create_symlinks: compute
the set difference (position 0 raises IndexError when empty), ensure the
subconcept directory exists, and ensure the label-named symlink to it exists.
The created symlink path is not removed from the old-files snapshot. -/
def processSubH (st : HSt) (symdir cdir : List Str) (n : HNode) (acc : SymSt) (ck : Str) :
    Except PyErr SymSt :=
  let subN := (lookupH ck st).getD ⟨[], [], []⟩
  match setDiff subN.concepts n.concepts with
  | [] => .error .indexError
  | label :: _ =>
    let spath := symdir ++ [ck]
    let srel := S "../" ++ ck
    let sname := cdir ++ [label]
    let fl1 := createDirF acc.fs acc.log spath
    let fl2 := createSymlinkF fl1.1 fl1.2 sname srel
    .ok { acc with fs := fl2.1, log := fl2.2 }

/-- Fold of processSubH over a node`s subconcepts. -/
def processSubsH (st : HSt) (symdir cdir : List Str) (n : HNode) :
    List Str → SymSt → Except PyErr SymSt
  | [], acc => .ok acc
  | ck :: rest, acc =>
    match processSubH st symdir cdir n acc ck with
    | .error e => .error e
    | .ok acc1 => processSubsH st symdir cdir n rest acc1

/-- The page block inside the concept loop of create_symlinks: ensure the
title-named symlink to the page file exists, then remove its path from the
old-files snapshot. -/
def processPageSymH (memDir cdir : List Str) (acc : SymSt) (p : HPage) : SymSt :=
  let title := p.title.filter (fun c => !(c == star))
  let ppath := cdir ++ [title ++ mdExt]
  let target := relPath (pageFilePath memDir p) cdir
  let fl := createSymlinkF acc.fs acc.log ppath target
  { fs := fl.1, old := acc.old.erase (normP ppath), log := fl.2 }

/-- One iteration of the concept loop of create_symlinks: ensure the concept
directory, remove it from the snapshot, process subconcepts, process pages. -/
def processConceptH (st : HSt) (memDir symdir : List Str) (acc : SymSt) (k : Str) (n : HNode) :
    Except PyErr SymSt :=
  let cdir := symdir ++ [k]
  let fl := createDirF acc.fs acc.log cdir
  let acc1 : SymSt := ⟨fl.1, acc.old.erase (normP cdir), fl.2⟩
  match processSubsH st symdir cdir n n.subconcepts acc1 with
  | .error e => .error e
  | .ok acc2 => .ok (n.pages.foldl (processPageSymH memDir cdir) acc2)

/-- The concept loop of create_symlinks over the length-sorted concepts. -/
def processConceptsH (st : HSt) (memDir symdir : List Str) :
    List (Str × HNode) → SymSt → Except PyErr SymSt
  | [], acc => .ok acc
  | (k, n) :: rest, acc =>
    match processConceptH st memDir symdir acc k n with
    | .error e => .error e
    | .ok acc1 => processConceptsH st memDir symdir rest acc1

/-- MemoryThreads.create_symlinks from src/hdm.py: ensure the symlink root,
snapshot the tree below it, loop over concepts sorted by tag count ensuring
directories and links while erasing confirmed page links and concept
directories (but never subconcept links) from the snapshot, then run the
cleanup loop over the snapshot sorted by descending path length. -/
def create_symlinks_model (st : HSt) (memDir : List Str) (fs0 : Fs) :
    Except PyErr (Fs × List Act) :=
  let symdir := memDir ++ [S "symlink"]
  let fl := createDirF fs0 [] symdir
  let old := searchFilesF fl.1 symdir
  let sorted := st.insertionSort (fun a b => a.2.concepts.length ≤ b.2.concepts.length)
  match processConceptsH st memDir symdir sorted ⟨fl.1, old, fl.2⟩ with
  | .error e => .error e
  | .ok acc =>
    cleanupF (acc.old.insertionSort (fun a b => pathStrLen b ≤ pathStrLen a)) acc.fs acc.log

/-- The memory-pages loading state of src/link-memories-single-line-web.py. -/
structure WebLoadSt where
  memory_pages : List HPage
  forward_links : List (Str × Str)
  reverse_links : List (Str × Str)
  threads : WSt
deriving DecidableEq

/-- Overwrite-or-append assignment for a string-keyed dictionary. -/
def assocSet (k v : Str) : List (Str × Str) → List (Str × Str)
  | [] => [(k, v)]
  | (k0, v0) :: rest => if k0 = k then (k0, v) :: rest else (k0, v0) :: assocSet k v rest

/-- MemoryThreads.load_memory_files from src/link-memories-single-line-web.py:
append the page, then test its title against forward_links; on a duplicate
title the diagnostic print evaluates the bare name forward_links, which is
defined nowhere in the module, so the load raises NameError; otherwise record
the links and recurse the page`s concept combinations. -/
def loadWebPages : List HPage → WebLoadSt → Except PyErr WebLoadSt
  | [], st => .ok st
  | p :: rest, st =>
    let st1 := { st with memory_pages := st.memory_pages ++ [p] }
    if st1.forward_links.any (fun e => e.1 == p.title) then
      .error .nameError_forward_links
    else
      loadWebPages rest
        { st1 with
          forward_links := st1.forward_links ++ [(p.title, p.id)]
          reverse_links := assocSet p.id p.id st1.reverse_links
          threads := loadPageW p.id p.concepts st1.threads }

/-- Filesystem intents of src/link-memories.py: ensure-directory and
ensure-symlink calls, by path. -/
inductive TAct where
  | dir (p : List Str)
  | link (p : List Str) (target : Str)
deriving DecidableEq

/-- Directory name constants of src/link-memories.py. -/
def THREAD_DIR : Str := S "symlinks"

/-- Hidden directory for multi-tag combinations in src/link-memories.py. -/
def MULTI_THREAD_DIR : Str := S ".symlinks"

/-- Source directory name in src/link-memories.py. -/
def MEMORY_DIR : Str := S "memory"

/-- create_hash_from_tags from src/link-memories.py: sha256 hexdigest of the
concatenated tags, the digest modelled by its marked pre-image. -/
def create_hash_from_tags (tags : List Str) : Str := digestMark :: tags.flatten

/-- One combination step of recurse_thread_combinations from
src/link-memories.py: directories for depth above one go under the hidden
multi-thread directory named by the tag hash, depth-one directories go under
the top-level thread directory named by the single tag (position 0 of an
empty combination raises IndexError); a symlink to the memory file is ensured
inside, and when the set difference of the level`s threads minus the
combination is non-empty, a bridge symlink named by its first element is
ensured, pointing at the hash-named directory of the level`s threads
(reached from the top level through the hidden directory). -/
def tstep (mfile mtitle : Str) (dest : List Str) (depth : Nat) (threads comb : List Str) :
    Except PyErr (List TAct) :=
  let basePath := if depth > 1 then dest ++ [MULTI_THREAD_DIR] else dest ++ [THREAD_DIR]
  let targetRel :=
    if depth > 1 then S "../../" ++ create_hash_from_tags threads
    else S "../../" ++ MULTI_THREAD_DIR ++ [slash] ++ create_hash_from_tags threads
  let path? : Except PyErr (List Str) :=
    if depth > 1 then .ok (basePath ++ [create_hash_from_tags comb])
    else match comb with
      | [] => .error .indexError
      | t :: _ => .ok (basePath ++ [t])
  match path? with
  | .error e => .error e
  | .ok path =>
    let acts1 := [TAct.dir path,
      TAct.link (path ++ [mtitle ++ mdExt]) (S "../../" ++ MEMORY_DIR ++ [slash] ++ mfile)]
    match setDiff threads comb with
    | [] => .ok acts1
    | lbl :: _ => .ok (acts1 ++ [TAct.link (path ++ [lbl]) targetRel])

/-- Error-propagating concatenation of per-combination action lists. -/
def tfold (f : List Str → Except PyErr (List TAct)) : List (List Str) → Except PyErr (List TAct)
  | [] => .ok []
  | c :: rest =>
    match f c with
    | .error e => .error e
    | .ok a =>
      match tfold f rest with
      | .error e => .error e
      | .ok b => .ok (a ++ b)

/-- recurse_thread_combinations from src/link-memories.py: process every
combination of the threads at the current depth, recursing one level down
per combination while the depth exceeds one. -/
def recurseThreadsL (mfile mtitle : Str) (dest : List Str) : Nat → List Str → Except PyErr (List TAct)
  | 0, threads => tfold (fun comb => tstep mfile mtitle dest 0 threads comb) (List.sublistsLen 0 threads)
  | 1, threads => tfold (fun comb => tstep mfile mtitle dest 1 threads comb) (List.sublistsLen 1 threads)
  | d + 2, threads =>
    tfold
      (fun comb =>
        match tstep mfile mtitle dest (d + 2) threads comb with
        | .error e => .error e
        | .ok a =>
          match recurseThreadsL mfile mtitle dest (d + 1) comb with
          | .error e => .error e
          | .ok b => .ok (a ++ b))
      (List.sublistsLen (d + 2) threads)

/-- The single-page corpus of the lattice-completeness scenario: one page
tagged A, B, C. -/
def abcRunW : WSt := loadPageW (S "p1") [S "A", S "B", S "C"] []

/-- A two-page corpus: one page tagged a and b, one page tagged a, so the
single-tag node receives the two-tag node as a subconcept. -/
def corpusAB : List HPage :=
  [⟨S "p1", S "*a* *b* One", [S "a", S "b"]⟩, ⟨S "p2", S "*a* Two", [S "a"]⟩]

/-- The built concept dictionary of corpusAB. -/
def builtAB : HSt := buildH 20 corpusAB

/-- A corpus whose node stored under key AB was created by a page with
differently-cased tags than a later combination that hashes to the same key:
the set difference between the linked nodes then has three elements. -/
def corpusCase : List HPage :=
  [⟨S "p1", S "*a* *b* *c* One", [S "a", S "b", S "c"]⟩, ⟨S "p2", S "*A* *B* Two", [S "A", S "B"]⟩]

/-- The built concept dictionary of corpusCase. -/
def builtCase : HSt := buildH 20 corpusCase

/-- A one-page corpus whose page has an empty tag list. -/
def corpusUntagged : List HPage := [⟨S "p1", S "Untagged note", []⟩]

/-- The built concept dictionary of corpusUntagged. -/
def builtUntagged : HSt := buildH 5 corpusUntagged

/-- The filesystem of a successful materializer run (the empty filesystem
for a failed one). -/
def fsAfter (r : Except PyErr (Fs × List Act)) : Fs :=
  match r with
  | .ok fl => fl.1
  | .error _ => ⟨[], []⟩

/-- The write log of a successful materializer run. -/
def logOf (r : Except PyErr (Fs × List Act)) : List Act :=
  match r with
  | .ok fl => fl.2
  | .error _ => []

/-- First symlink-materializer run on corpusAB, from an empty filesystem. -/
def runSym1 : Except PyErr (Fs × List Act) :=
  create_symlinks_model builtAB [S "mem"] ⟨[], []⟩

/-- Second symlink-materializer run on corpusAB, over the first run`s tree. -/
def runSym2 : Except PyErr (Fs × List Act) :=
  create_symlinks_model builtAB [S "mem"] (fsAfter runSym1)

/-- The first run`s tree plus one stale symlink for a since-removed page. -/
def fsStale : Fs :=
  let fs := fsAfter runSym1
  { fs with links := fs.links ++ [([S "mem", S "symlink", S "a", S "Gone.md"], S "../../gone.md")] }

/-- Rebuild over the tree containing the stale link. -/
def runSymStale : Except PyErr (Fs × List Act) :=
  create_symlinks_model builtAB [S "mem"] fsStale

/-- The nine parent-to-child lattice edges of a page tagged A, B, C, each
with the removed tag. -/
def abcEdges : List (List Str × List Str × Str) :=
  [([S "A", S "B", S "C"], [S "A", S "B"], S "C"),
   ([S "A", S "B", S "C"], [S "A", S "C"], S "B"),
   ([S "A", S "B", S "C"], [S "B", S "C"], S "A"),
   ([S "A", S "B"], [S "A"], S "B"),
   ([S "A", S "B"], [S "B"], S "A"),
   ([S "A", S "C"], [S "A"], S "C"),
   ([S "A", S "C"], [S "C"], S "A"),
   ([S "B", S "C"], [S "B"], S "C"),
   ([S "B", S "C"], [S "C"], S "B")]

/-- The seven non-empty tag subsets of a page tagged A, B, C. -/
def abcSubsets : List (List Str) :=
  [[S "A"], [S "B"], [S "C"], [S "A", S "B"], [S "A", S "C"], [S "B", S "C"],
   [S "A", S "B", S "C"]]

/-- ASCII uppercase letter code point. -/
def isUpperCode (n : Nat) : Prop := 65 ≤ n ∧ n ≤ 90

/-- ASCII lowercase letter code point. -/
def isLowerCode (n : Nat) : Prop := 97 ≤ n ∧ n ≤ 122

/-- ASCII letter code point. -/
def asciiAlpha (n : Nat) : Prop := isUpperCode n ∨ isLowerCode n

/-- A non-empty all-ASCII-letter tag (the range on which the model`s case
mapping agrees with Python`s). -/
def alphaTag (t : Str) : Prop := t ≠ [] ∧ ∀ c ∈ t, asciiAlpha c

/-- Uppercase the first code point only (how capitalize acts on an
already-lowercased string). -/
def upperFirst : Str → Str
  | [] => []
  | c :: cs => upperN c :: cs

instance (n : Nat) : Decidable (isUpperCode n) := by unfold isUpperCode; infer_instance

instance (n : Nat) : Decidable (isLowerCode n) := by unfold isLowerCode; infer_instance

instance (n : Nat) : Decidable (asciiAlpha n) := by unfold asciiAlpha; infer_instance

instance (t : Str) : Decidable (alphaTag t) := by unfold alphaTag; infer_instance

/-- Shape of a capitalized ASCII-alphabetic tag: an uppercase head followed
by lowercase code points (the token shape that makes concatenation of
capitalized tags unambiguous). -/
def GoodCap (s : Str) : Prop :=
  ∃ c cs, s = c :: cs ∧ isUpperCode c ∧ ∀ d ∈ cs, isLowerCode d

/-- State evolution in the thread dictionary: every stored thread survives,
and its recorded links survive with it. -/
def StMono (st st' : WSt) : Prop :=
  ∀ k t, lookupTh k st = some t →
    ∃ t', lookupTh k st' = some t' ∧ ∀ x, x ∈ t.threads → x ∈ t'.threads

/-- State evolution in the hdm.py concept dictionary: every stored node
survives and keeps its attached pages. -/
def HPagesMono (st st' : HSt) : Prop :=
  ∀ k n, lookupH k st = some n →
    ∃ n', lookupH k st' = some n' ∧ ∀ p ∈ n.pages, p ∈ n'.pages

theorem recurseCombosW_nil (pid : Str) (d : Nat) (child : Option Str) (st : WSt) :
    recurseCombosW pid d [] child st = st := by
  match d with
  | 0 => rfl
  | 1 => rfl
  | _ + 2 => rfl

theorem recurseCombosW_cons (pid : Str) (d : Nat) (comb : List Str)
    (rest : List (List Str)) (child : Option Str) (st : WSt) :
    recurseCombosW pid d (comb :: rest) child st =
      recurseCombosW pid d rest child (levelStep pid d comb child st) := by
  match d with
  | 0 => rfl
  | 1 => rfl
  | _ + 2 => rfl

theorem lookupTh_append_of_isSome {k : Str} {st : WSt} (l : WSt)
    (h : (lookupTh k st).isSome) : lookupTh k (st ++ l) = lookupTh k st := by
  induction st with
  | nil => simp [lookupTh] at h
  | cons e rest ih =>
    by_cases hk : e.1 = k
    · simp [lookupTh, hk]
    · simp only [lookupTh, hk, if_false, List.cons_append] at h ⊢
      · exact ih h

theorem lookupTh_append_new {k : Str} {st : WSt} (t : WThread)
    (h : lookupTh k st = none) : lookupTh k (st ++ [(k, t)]) = some t := by
  induction st with
  | nil => simp [lookupTh]
  | cons e rest ih =>
    by_cases hk : e.1 = k
    · simp [lookupTh, hk] at h
    · simp only [lookupTh, hk, if_false, List.cons_append] at h ⊢
      exact ih h

theorem lookupTh_modify (k k0 : Str) (f : WThread → WThread) (st : WSt) :
    lookupTh k (modifyTh k0 f st) =
      if k0 = k then (lookupTh k st).map f else lookupTh k st := by
  induction st with
  | nil => simp [lookupTh, modifyTh]
  | cons e rest ih =>
    obtain ⟨a, t⟩ := e
    by_cases h0 : a = k0
    · subst h0
      by_cases hk : a = k
      · subst hk
        simp [lookupTh, modifyTh]
      · simp [lookupTh, modifyTh, hk]
    · by_cases hk : a = k
      · subst hk
        have hk0 : ¬(k0 = a) := fun h => h0 h.symm
        simp [lookupTh, modifyTh, h0, hk0]
      · simp [lookupTh, modifyTh, h0, hk, ih]

theorem lookupTh_getThreadSt_self (c : List Str) (st : WSt) :
    (lookupTh (hashW c) (getThreadSt c st)).isSome := by
  unfold getThreadSt
  cases hl : lookupTh (hashW c) st with
  | some t => simp [hl]
  | none =>
    simp only [Option.isSome_none, Bool.false_eq_true, if_false]
    rw [lookupTh_append_new _ hl]
    rfl

theorem lookupTh_getThreadSt_of_isSome {k : Str} {st : WSt} (c : List Str)
    (h : (lookupTh k st).isSome) : lookupTh k (getThreadSt c st) = lookupTh k st := by
  unfold getThreadSt
  cases hc : (lookupTh (hashW c) st).isSome with
  | true => simp
  | false =>
    simp only [Bool.false_eq_true, if_false]
    exact lookupTh_append_of_isSome _ h

theorem stMono_refl (st : WSt) : StMono st st :=
  fun _ t h => ⟨t, h, fun _ hx => hx⟩

theorem stMono_trans {s1 s2 s3 : WSt} (h12 : StMono s1 s2) (h23 : StMono s2 s3) :
    StMono s1 s3 := by
  intro k t h
  obtain ⟨t2, h2, hsub2⟩ := h12 k t h
  obtain ⟨t3, h3, hsub3⟩ := h23 k t2 h2
  exact ⟨t3, h3, fun x hx => hsub3 x (hsub2 x hx)⟩

theorem stMono_getThreadSt (c : List Str) (st : WSt) : StMono st (getThreadSt c st) := by
  intro k t h
  rw [lookupTh_getThreadSt_of_isSome c (by simp [h])]
  exact ⟨t, h, fun _ hx => hx⟩

theorem stMono_modify (k0 : Str) (f : WThread → WThread)
    (hf : ∀ t x, x ∈ t.threads → x ∈ (f t).threads) (st : WSt) :
    StMono st (modifyTh k0 f st) := by
  intro k t h
  rw [lookupTh_modify]
  by_cases hk : k0 = k
  · exact ⟨f t, by simp [hk, h], fun x hx => hf t x hx⟩
  · exact ⟨t, by simp [hk, h], fun _ hx => hx⟩

theorem stMono_addPageTh (k0 pid : Str) (st : WSt) : StMono st (addPageTh k0 pid st) := by
  apply stMono_modify
  intro t x hx
  by_cases hp : pid ∈ t.pages <;> simp [hp, hx]

theorem stMono_addThreadTh (k0 ck : Str) (st : WSt) : StMono st (addThreadTh k0 ck st) := by
  apply stMono_modify
  intro t x hx
  by_cases hc : ck ∈ t.threads <;> simp [hc, hx]

theorem stMono_stepW (pid : Str) (comb : List Str) (child : Option Str) (st : WSt) :
    StMono st (stepW pid comb child st) := by
  unfold stepW
  match child with
  | some ck =>
    exact stMono_trans (stMono_trans (stMono_getThreadSt _ _) (stMono_addPageTh _ _ _))
      (stMono_addThreadTh _ _ _)
  | none =>
    exact stMono_trans (stMono_getThreadSt _ _) (stMono_addPageTh _ _ _)

theorem stMono_recurseCombosW (pid : Str) :
    ∀ (d : Nat) (combos : List (List Str)) (child : Option Str) (st : WSt),
      StMono st (recurseCombosW pid d combos child st) := by
  intro d
  induction d with
  | zero =>
    intro combos
    induction combos with
    | nil => intro child st; rw [recurseCombosW_nil]; exact stMono_refl st
    | cons c rest ih =>
      intro child st
      rw [recurseCombosW_cons]
      exact stMono_trans (stMono_stepW pid c child st) (ih child _)
  | succ e ihd =>
    intro combos
    induction combos with
    | nil => intro child st; rw [recurseCombosW_nil]; exact stMono_refl st
    | cons c rest ih =>
      intro child st
      rw [recurseCombosW_cons]
      refine stMono_trans ?_ (ih child _)
      match e with
      | 0 => exact stMono_stepW pid c child st
      | e' + 1 =>
        exact stMono_trans (stMono_stepW pid c child st) (ihd _ _ _)

theorem stMono_isSome {st st' : WSt} (h : StMono st st') {k : Str}
    (hk : (lookupTh k st).isSome) : (lookupTh k st').isSome := by
  cases hl : lookupTh k st with
  | none => rw [hl] at hk; simp at hk
  | some t => obtain ⟨t', h', _⟩ := h k t hl; simp [h']

theorem stMono_threadsOf {st st' : WSt} (h : StMono st st') {k x : Str}
    (hx : x ∈ threadsOf k st) : x ∈ threadsOf k st' := by
  unfold threadsOf at hx ⊢
  cases hl : lookupTh k st with
  | none => rw [hl] at hx; simp at hx
  | some t =>
    rw [hl] at hx
    obtain ⟨t', h', hsub⟩ := h k t hl
    rw [h']
    exact hsub x hx

theorem isSome_modify {k : Str} (k0 : Str) (f : WThread → WThread) {st : WSt}
    (h : (lookupTh k st).isSome) : (lookupTh k (modifyTh k0 f st)).isSome := by
  rw [lookupTh_modify]
  by_cases hk : k0 = k <;> cases hl : lookupTh k st <;> simp_all

theorem stepW_key_isSome (pid : Str) (comb : List Str) (child : Option Str) (st : WSt) :
    (lookupTh (hashW comb) (stepW pid comb child st)).isSome := by
  unfold stepW addPageTh addThreadTh
  match child with
  | some ck =>
    exact isSome_modify _ _ (isSome_modify _ _ (lookupTh_getThreadSt_self comb st))
  | none =>
    exact isSome_modify _ _ (lookupTh_getThreadSt_self comb st)

theorem stepW_child_mem (pid : Str) (comb : List Str) (ck : Str) (st : WSt) :
    ck ∈ threadsOf (hashW comb) (stepW pid comb (some ck) st) := by
  have h2 : (lookupTh (hashW comb) (addPageTh (hashW comb) pid (getThreadSt comb st))).isSome := by
    unfold addPageTh
    exact isSome_modify _ _ (lookupTh_getThreadSt_self comb st)
  show ck ∈ threadsOf (hashW comb)
    (addThreadTh (hashW comb) ck (addPageTh (hashW comb) pid (getThreadSt comb st)))
  unfold threadsOf addThreadTh
  cases hl : lookupTh (hashW comb) (addPageTh (hashW comb) pid (getThreadSt comb st)) with
  | none => rw [hl] at h2; simp at h2
  | some t =>
    rw [lookupTh_modify]
    simp only [if_pos rfl, hl, Option.map_some]
    by_cases hc : ck ∈ t.threads <;> simp [hc]

theorem stMono_levelStep (pid : Str) (d : Nat) (c : List Str) (child : Option Str) (st : WSt) :
    StMono st (levelStep pid d c child st) := by
  unfold levelStep
  match d with
  | 0 => exact stMono_stepW pid c child st
  | 1 => exact stMono_stepW pid c child st
  | e + 2 =>
    exact stMono_trans (stMono_stepW pid c child st) (stMono_recurseCombosW pid _ _ _ _)

theorem levelStep_key_isSome (pid : Str) (d : Nat) (c : List Str) (child : Option Str) (st : WSt) :
    (lookupTh (hashW c) (levelStep pid d c child st)).isSome := by
  unfold levelStep
  match d with
  | 0 => exact stepW_key_isSome pid c child st
  | 1 => exact stepW_key_isSome pid c child st
  | e + 2 =>
    exact stMono_isSome (stMono_recurseCombosW pid _ _ _ _) (stepW_key_isSome pid c child st)

theorem levelStep_child_mem (pid : Str) (d : Nat) (c : List Str) (ck : Str) (st : WSt) :
    ck ∈ threadsOf (hashW c) (levelStep pid d c (some ck) st) := by
  unfold levelStep
  match d with
  | 0 => exact stepW_child_mem pid c ck st
  | 1 => exact stepW_child_mem pid c ck st
  | e + 2 =>
    exact stMono_threadsOf (stMono_recurseCombosW pid _ _ _ _) (stepW_child_mem pid c ck st)

theorem child_link_recurse (pid : Str) (ck : Str) :
    ∀ (d : Nat) (combos : List (List Str)) (st : WSt) (C : List Str), C ∈ combos →
      ck ∈ threadsOf (hashW C) (recurseCombosW pid d combos (some ck) st) := by
  intro d combos
  induction combos with
  | nil => intro st C hC; simp at hC
  | cons c rest ih =>
    intro st C hC
    rw [recurseCombosW_cons]
    cases List.mem_cons.mp hC with
    | inr h => exact ih _ C h
    | inl h =>
      subst h
      exact stMono_threadsOf (stMono_recurseCombosW pid _ _ _ _)
        (levelStep_child_mem pid d C ck st)

theorem sublist_intermediate {α : Type} {S C : List α} (h : List.Sublist S C) :
    ∀ m, S.length ≤ m → m ≤ C.length → ∃ T, List.Sublist S T ∧ List.Sublist T C ∧ T.length = m := by
  induction h with
  | slnil =>
    intro m h1 h2
    simp only [List.length_nil, Nat.le_zero] at h2
    exact ⟨[], List.Sublist.refl [], List.Sublist.refl [], by simp [h2]⟩
  | @cons l1 l2 a h ih =>
    intro m h1 h2
    simp only [List.length_cons] at h2
    by_cases hm : m ≤ l2.length
    · obtain ⟨T, hST, hTC, hlen⟩ := ih m h1 hm
      exact ⟨T, hST, hTC.cons a, hlen⟩
    · have hm2 : m = l2.length + 1 := by omega
      obtain ⟨T, hST, hTC, hlen⟩ := ih l2.length h.length_le (Nat.le_refl _)
      exact ⟨a :: T, hST.cons a, hTC.cons₂ a, by simp [hlen, hm2]⟩
  | @cons₂ l1 l2 a h ih =>
    intro m h1 h2
    simp only [List.length_cons] at h1 h2
    obtain ⟨T, hST, hTC, hlen⟩ := ih (m - 1) (by omega) (by omega)
    refine ⟨a :: T, hST.cons₂ a, hTC.cons₂ a, ?_⟩
    simp only [List.length_cons, hlen]
    omega

theorem nodes_recurse (pid : Str) :
    ∀ (d : Nat) (combos : List (List Str)) (child : Option Str) (st : WSt),
      (∀ C ∈ combos, C.length = d) →
      ∀ C ∈ combos, ∀ S, List.Sublist S C → S ≠ [] →
        (lookupTh (hashW S) (recurseCombosW pid d combos child st)).isSome := by
  intro d
  induction d with
  | zero =>
    intro combos child st hlen C hC S hS hne
    have hC0 : C = [] := List.length_eq_zero.mp (hlen C hC)
    subst hC0
    exact absurd (List.sublist_nil.mp hS) hne
  | succ e ihd =>
    intro combos
    induction combos with
    | nil => intro child st _ C hC; simp at hC
    | cons c rest ihc =>
      intro child st hlen C hC S hS hne
      rw [recurseCombosW_cons]
      cases List.mem_cons.mp hC with
      | inr h =>
        exact ihc child _ (fun C' h' => hlen C' (List.mem_cons_of_mem c h')) C h S hS hne
      | inl h =>
        subst h
        apply stMono_isSome (stMono_recurseCombosW pid _ rest child _)
        by_cases hSC : S = C
        · subst hSC
          exact levelStep_key_isSome pid (e + 1) S child st
        · have hClen : C.length = e + 1 := hlen C (List.mem_cons_self C rest)
          have hSlt : S.length < e + 1 := by
            have hle := hS.length_le
            rw [hClen] at hle
            rcases Nat.lt_or_ge S.length (e + 1) with hlt | hge
            · exact hlt
            · exact absurd (hS.eq_of_length (by omega)) hSC
          have hSpos : 0 < S.length := List.length_pos.mpr hne
          obtain ⟨e', rfl⟩ : ∃ e', e = e' + 1 := ⟨e - 1, by omega⟩
          obtain ⟨T, hST, hTC, hTlen⟩ :=
            sublist_intermediate hS (e' + 1) (by omega) (by omega)
          show (lookupTh (hashW S) (levelStep pid (e' + 2) C child st)).isSome
          unfold levelStep
          exact ihd (List.sublistsLen (e' + 1) C) (some (hashW C)) (stepW pid C child st)
            (fun C' h' => (List.mem_sublistsLen.mp h').2) T
            (List.mem_sublistsLen.mpr ⟨hTC, hTlen⟩) S hST hne

theorem edges_recurse (pid : Str) :
    ∀ (d : Nat) (combos : List (List Str)) (child : Option Str) (st : WSt),
      (∀ C ∈ combos, C.length = d) →
      ∀ C ∈ combos, ∀ P S, List.Sublist S P → List.Sublist P C → P.length = S.length + 1 → S ≠ [] →
        hashW P ∈ threadsOf (hashW S) (recurseCombosW pid d combos child st) := by
  intro d
  induction d with
  | zero =>
    intro combos child st hlen C hC P S hSP hPC hlen1 hne
    have hC0 : C = [] := List.length_eq_zero.mp (hlen C hC)
    subst hC0
    have hP0 : P = [] := List.sublist_nil.mp hPC
    subst hP0
    simp at hlen1
  | succ e ihd =>
    intro combos
    induction combos with
    | nil => intro child st _ C hC; simp at hC
    | cons c rest ihc =>
      intro child st hlen C hC P S hSP hPC hlen1 hne
      rw [recurseCombosW_cons]
      cases List.mem_cons.mp hC with
      | inr h =>
        exact ihc child _ (fun C' h' => hlen C' (List.mem_cons_of_mem c h')) C h P S hSP hPC hlen1 hne
      | inl h =>
        subst h
        apply stMono_threadsOf (stMono_recurseCombosW pid _ rest child _)
        have hClen : C.length = e + 1 := hlen C (List.mem_cons_self C rest)
        have hSpos : 0 < S.length := List.length_pos.mpr hne
        by_cases hPC2 : P = C
        · subst hPC2
          have hSlen : S.length = e := by
            rw [hClen] at hlen1
            omega
          obtain ⟨e', rfl⟩ : ∃ e', e = e' + 1 := ⟨e - 1, by omega⟩
          show hashW P ∈ threadsOf (hashW S) (levelStep pid (e' + 2) P child st)
          unfold levelStep
          exact child_link_recurse pid (hashW P) (e' + 1) _ _ S
            (List.mem_sublistsLen.mpr ⟨hSP, by omega⟩)
        · have hPlt : P.length < e + 1 := by
            have hle := hPC.length_le
            rw [hClen] at hle
            rcases Nat.lt_or_ge P.length (e + 1) with hlt | hge
            · exact hlt
            · exact absurd (hPC.eq_of_length (by omega)) hPC2
          have hPge : 2 ≤ P.length := by omega
          obtain ⟨e', rfl⟩ : ∃ e', e = e' + 1 := ⟨e - 1, by omega⟩
          obtain ⟨T, hPT, hTC, hTlen⟩ :=
            sublist_intermediate hPC (e' + 1) (by omega) (by omega)
          show hashW P ∈ threadsOf (hashW S) (levelStep pid (e' + 2) C child st)
          unfold levelStep
          exact ihd (List.sublistsLen (e' + 1) C) (some (hashW C)) (stepW pid C child st)
            (fun C' h' => (List.mem_sublistsLen.mp h').2) T
            (List.mem_sublistsLen.mpr ⟨hTC, hTlen⟩) P S hSP hPT hlen1 hne

theorem extract_foldl_filter (ws : List Str) (acc : List Str) :
    ws.foldl
      (fun concepts word =>
        if isTagToken word then concepts ++ [stripStars word] else concepts)
      acc
      = acc ++ (ws.filter isTagToken).map stripStars := by
  induction ws generalizing acc with
  | nil => simp
  | cons w rest ih =>
    by_cases h : isTagToken w <;> simp [h, ih, List.append_assoc]

/-- C9: for every title line, the extractor returns, in source order and
without deduplication, exactly the whitespace-separated tokens that begin and
end with the asterisk delimiter, each with the delimiter characters removed;
in particular a multi-word italic phrase yields no tag while a single-token
italic word yields its tag, and a repeated tag is kept twice. -/
theorem claim_C9_tag_extraction (title : Str) :
    extract_concepts_from_title title = specTagExtraction title ∧
    extract_concepts_from_title (S "*Favorite* Food") = [S "Favorite"] ∧
    extract_concepts_from_title (S "*Favorite Stuff*") = [] ∧
    extract_concepts_from_title (S "*A* Thing *A*") = [S "A", S "A"] := by
  refine ⟨?_, by decide, by decide, by decide⟩
  unfold extract_concepts_from_title specTagExtraction
  simpa using extract_foldl_filter (splitWs title) []

/-- C1: the claim asserts that a page tagged A, B, C yields exactly 6
parent-to-child edges; the construction of
src/link-memories-single-line-web.py yields 9 (every pair of the 7 subset
nodes differing by exactly one tag is linked), so the claim as stated is
false on the code. -/
theorem claim_C1_counterexample :
    edgeCountW abcRunW = 9 ∧ ¬(edgeCountW abcRunW = 6) := by
  exact ⟨by decide, by decide⟩

/-- C1 (amended): for every page, the recursion of
src/link-memories-single-line-web.py obtains-or-creates a thread node for
every non-empty subset of the page`s tag list, and for every pair of subsets
differing by exactly one tag a parent-to-child link exists; in particular a
page tagged A, B, C yields exactly the 7 subset nodes and exactly 9
parent-to-child edges, each labelled (by the materializer`s set difference)
with the removed tag. -/
theorem claim_C1_amended :
    (∀ (pid : Str) (tags : List Str) (st : WSt) (s : List Str),
        List.Sublist s tags → s ≠ [] →
        (lookupTh (hashW s) (loadPageW pid tags st)).isSome) ∧
    (∀ (pid : Str) (tags : List Str) (st : WSt) (p s : List Str),
        List.Sublist s p → List.Sublist p tags → p.length = s.length + 1 → s ≠ [] →
        hashW p ∈ threadsOf (hashW s) (loadPageW pid tags st)) ∧
    (keysW abcRunW).length = 7 ∧ (keysW abcRunW).Nodup ∧
    (∀ s ∈ abcSubsets, hashW s ∈ keysW abcRunW) ∧
    edgeCountW abcRunW = 9 ∧
    (∀ e ∈ abcEdges,
      hashW e.1 ∈ threadsOf (hashW e.2.1) abcRunW ∧
      setDiff (conceptsOf (hashW e.1) abcRunW) (conceptsOf (hashW e.2.1) abcRunW) = [e.2.2]) := by
  refine ⟨?_, ?_, by decide, by decide, by decide, by decide, by decide⟩
  · intro pid tags st s hs hne
    unfold loadPageW
    exact nodes_recurse pid tags.length (List.sublistsLen tags.length tags) none st
      (fun C hC => (List.mem_sublistsLen.mp hC).2) tags
      (by rw [List.sublistsLen_length]; exact List.mem_singleton_self tags) s hs hne
  · intro pid tags st p s hsp hpt hlen hne
    unfold loadPageW
    exact edges_recurse pid tags.length (List.sublistsLen tags.length tags) none st
      (fun C hC => (List.mem_sublistsLen.mp hC).2) tags
      (by rw [List.sublistsLen_length]; exact List.mem_singleton_self tags) p s hsp hpt hlen hne

/-- C1 (witness): the amended theorem applied at a concrete page and subset
pair. -/
theorem claim_C1_witness :
    (lookupTh (hashW [S "A", S "B"]) (loadPageW (S "p1") [S "A", S "B", S "C"] [])).isSome ∧
    hashW [S "A", S "B", S "C"] ∈
      threadsOf (hashW [S "A", S "B"]) (loadPageW (S "p1") [S "A", S "B", S "C"] []) := by
  constructor
  · exact claim_C1_amended.1 (S "p1") [S "A", S "B", S "C"] [] [S "A", S "B"]
      (by decide) (by decide)
  · exact claim_C1_amended.2.1 (S "p1") [S "A", S "B", S "C"] []
      [S "A", S "B", S "C"] [S "A", S "B"] (by decide) (by decide) (by decide) (by decide)

theorem lowerN_upper_val {c : Nat} (h : 65 ≤ c ∧ c ≤ 90) : lowerN c = c + 32 := by
  unfold lowerN
  rw [if_pos h]

theorem lowerN_other_val {c : Nat} (h : ¬(65 ≤ c ∧ c ≤ 90)) : lowerN c = c := by
  unfold lowerN
  rw [if_neg h]

theorem upperN_lower_val {c : Nat} (h : 97 ≤ c ∧ c ≤ 122) : upperN c = c - 32 := by
  unfold upperN
  rw [if_pos h]

theorem upperN_other_val {c : Nat} (h : ¬(97 ≤ c ∧ c ≤ 122)) : upperN c = c := by
  unfold upperN
  rw [if_neg h]

theorem lowerN_idem (c : Nat) : lowerN (lowerN c) = lowerN c := by
  by_cases h : 65 ≤ c ∧ c ≤ 90
  · rw [lowerN_upper_val h]
    exact lowerN_other_val (by omega)
  · rw [lowerN_other_val h, lowerN_other_val h]

theorem upperN_lowerN (c : Nat) (h : asciiAlpha c) : upperN (lowerN c) = upperN c := by
  rcases h with ⟨h1, h2⟩ | ⟨h1, h2⟩
  · rw [lowerN_upper_val ⟨h1, h2⟩, upperN_lower_val (by omega), upperN_other_val (by omega)]
    omega
  · rw [lowerN_other_val (by omega)]

theorem lowerN_upperN (c : Nat) : lowerN (upperN c) = lowerN c := by
  by_cases h : 97 ≤ c ∧ c ≤ 122
  · rw [upperN_lower_val h, lowerN_upper_val (by omega), lowerN_other_val (by omega)]
    omega
  · rw [upperN_other_val h]

theorem isLower_lowerN (c : Nat) (h : asciiAlpha c) : isLowerCode (lowerN c) := by
  unfold isLowerCode
  rcases h with ⟨h1, h2⟩ | ⟨h1, h2⟩
  · rw [lowerN_upper_val ⟨h1, h2⟩]
    omega
  · rw [lowerN_other_val (by omega)]
    omega

theorem isUpper_upperN (c : Nat) (h : asciiAlpha c) : isUpperCode (upperN c) := by
  unfold isUpperCode
  rcases h with ⟨h1, h2⟩ | ⟨h1, h2⟩
  · rw [upperN_other_val (by omega)]
    omega
  · rw [upperN_lower_val ⟨h1, h2⟩]
    omega

theorem upper_not_lower {c : Nat} (h : isUpperCode c) : ¬isLowerCode c := by
  unfold isUpperCode at h
  unfold isLowerCode
  omega

theorem pyCapitalize_eq_upperFirst_lower (t : Str) (h : alphaTag t) :
    pyCapitalize t = upperFirst (pyLower t) := by
  obtain ⟨hne, hall⟩ := h
  cases t with
  | nil => cases hne rfl
  | cons c cs =>
    unfold pyCapitalize pyLower upperFirst
    simp only [List.map_cons]
    rw [upperN_lowerN c (hall c (List.mem_cons_self c cs))]

theorem pyLower_pyCapitalize (t : Str) : pyLower (pyCapitalize t) = pyLower t := by
  cases t with
  | nil => rfl
  | cons c cs =>
    unfold pyCapitalize pyLower
    simp only [List.map_cons, List.map_map]
    rw [lowerN_upperN]
    congr 1
    exact List.map_congr_left (fun a _ => lowerN_idem a)

theorem goodCap_pyCapitalize (t : Str) (h : alphaTag t) : GoodCap (pyCapitalize t) := by
  obtain ⟨hne, hall⟩ := h
  cases t with
  | nil => cases hne rfl
  | cons c cs =>
    refine ⟨upperN c, cs.map lowerN, rfl, isUpper_upperN c (hall c (List.mem_cons_self c cs)), ?_⟩
    intro d hd
    obtain ⟨a, ha, rfl⟩ := List.mem_map.mp hd
    exact isLower_lowerN a (hall a (List.mem_cons_of_mem c ha))

theorem flatten_lower_aux :
    ∀ (x : Str), (∀ c ∈ x, isLowerCode c) →
    ∀ (y : Str), (∀ c ∈ y, isLowerCode c) →
    ∀ (L1 L2 : List Str), (∀ s ∈ L1, GoodCap s) → (∀ s ∈ L2, GoodCap s) →
      x ++ L1.flatten = y ++ L2.flatten → x = y ∧ L1.flatten = L2.flatten := by
  intro x
  induction x with
  | nil =>
    intro _ y hy L1 L2 h1 h2 heq
    cases y with
    | nil => exact ⟨rfl, heq⟩
    | cons d y2 =>
      exfalso
      simp only [List.nil_append, List.cons_append] at heq
      cases L1 with
      | nil => rw [List.flatten_nil] at heq; cases heq
      | cons s L1' =>
        obtain ⟨c, cs, rfl, hcU, _⟩ := h1 s (List.mem_cons_self s L1')
        rw [List.flatten_cons] at heq
        simp only [List.cons_append] at heq
        injection heq with hh _
        exact upper_not_lower hcU (hh ▸ hy d (List.mem_cons_self d y2))
  | cons a x2 ih =>
    intro hx y hy L1 L2 h1 h2 heq
    cases y with
    | nil =>
      exfalso
      simp only [List.nil_append, List.cons_append] at heq
      cases L2 with
      | nil => rw [List.flatten_nil] at heq; cases heq
      | cons s L2' =>
        obtain ⟨c, cs, rfl, hcU, _⟩ := h2 s (List.mem_cons_self s L2')
        rw [List.flatten_cons] at heq
        simp only [List.cons_append] at heq
        injection heq with hh _
        exact upper_not_lower hcU (hh.symm ▸ hx a (List.mem_cons_self a x2))
    | cons d y2 =>
      simp only [List.cons_append] at heq
      injection heq with hhead htail
      obtain ⟨hxy, hfl⟩ := ih (fun c hc => hx c (List.mem_cons_of_mem a hc)) y2
        (fun c hc => hy c (List.mem_cons_of_mem d hc)) L1 L2 h1 h2 htail
      exact ⟨by rw [hhead, hxy], hfl⟩

theorem flatten_inj :
    ∀ (L1 L2 : List Str), (∀ s ∈ L1, GoodCap s) → (∀ s ∈ L2, GoodCap s) →
      L1.flatten = L2.flatten → L1 = L2 := by
  intro L1
  induction L1 with
  | nil =>
    intro L2 _ h2 heq
    cases L2 with
    | nil => rfl
    | cons s L2' =>
      exfalso
      obtain ⟨c, cs, rfl, _, _⟩ := h2 s (List.mem_cons_self s L2')
      rw [List.flatten_nil, List.flatten_cons] at heq
      simp only [List.cons_append] at heq
      cases heq
  | cons s L1' ih =>
    intro L2 h1 h2 heq
    cases L2 with
    | nil =>
      exfalso
      obtain ⟨c, cs, rfl, _, _⟩ := h1 s (List.mem_cons_self s L1')
      rw [List.flatten_cons, List.flatten_nil] at heq
      simp only [List.cons_append] at heq
      cases heq
    | cons s2 L2' =>
      obtain ⟨c, cs, hs, hcU, hcsL⟩ := h1 s (List.mem_cons_self s L1')
      obtain ⟨c2, cs2, hs2, hc2U, hcs2L⟩ := h2 s2 (List.mem_cons_self s2 L2')
      subst hs
      subst hs2
      rw [List.flatten_cons, List.flatten_cons] at heq
      simp only [List.cons_append] at heq
      injection heq with hhead htail
      subst hhead
      obtain ⟨hcs, hfl⟩ := flatten_lower_aux cs hcsL cs2 hcs2L L1' L2'
        (fun t ht => h1 t (List.mem_cons_of_mem _ ht))
        (fun t ht => h2 t (List.mem_cons_of_mem _ ht)) htail
      subst hcs
      rw [ih L2' (fun t ht => h1 t (List.mem_cons_of_mem _ ht))
        (fun t ht => h2 t (List.mem_cons_of_mem _ ht)) hfl]

theorem sortStr_eq_of_perm {L1 L2 : List Str} (h : L1.Perm L2) :
    L1.insertionSort (· ≤ ·) = L2.insertionSort (· ≤ ·) :=
  List.eq_of_perm_of_sorted
    ((List.perm_insertionSort _ L1).trans (h.trans (List.perm_insertionSort _ L2).symm))
    (List.sorted_insertionSort _ L1) (List.sorted_insertionSort _ L2)

theorem hash_concepts_multi (A : List Str) (h : 2 ≤ A.length) :
    hash_concepts A = ((A.map pyCapitalize).insertionSort (· ≤ ·)).flatten := by
  rcases A with _ | ⟨a, _ | ⟨b, rest⟩⟩
  · simp at h
  · simp at h
  · rfl

theorem map_pyCapitalize_eq (A : List Str) (hA : ∀ t ∈ A, alphaTag t) :
    A.map pyCapitalize = (A.map pyLower).map upperFirst := by
  rw [List.map_map]
  exact List.map_congr_left (fun t ht => pyCapitalize_eq_upperFirst_lower t (hA t ht))

/-- C4: the claim asserts the key contract for all tag lists of size at
least one, but a single tag is its own key verbatim: the one-tag lists
Food and food case-fold to the same set yet receive different keys, so the
biconditional fails. -/
theorem claim_C4_counterexample :
    pyLower (S "Food") = pyLower (S "food") ∧
    ¬(hash_concepts [S "Food"] = hash_concepts [S "food"]) := by
  exact ⟨by decide, by decide⟩

/-- C4 (amended): for tag lists of at least two nonempty ASCII-alphabetic
tags whose case-folded forms are duplicate-free, hash_concepts of
src/hdm.py yields equal keys exactly when the case-folded sets are equal,
regardless of order or casing; for single-tag lists the key is the tag
verbatim, so two singleton keys coincide exactly when the tags are
literally equal (case included). -/
theorem claim_C4_amended :
    (∀ A B : List Str, 2 ≤ A.length → 2 ≤ B.length →
      (∀ t ∈ A, alphaTag t) → (∀ t ∈ B, alphaTag t) →
      (A.map pyLower).Nodup → (B.map pyLower).Nodup →
      (hash_concepts A = hash_concepts B ↔ ∀ t, t ∈ A.map pyLower ↔ t ∈ B.map pyLower)) ∧
    (∀ t u : Str, hash_concepts [t] = hash_concepts [u] ↔ t = u) := by
  constructor
  · intro A B hA2 hB2 hAa hBa hAnd hBnd
    rw [hash_concepts_multi A hA2, hash_concepts_multi B hB2]
    constructor
    · intro heq
      have hgoodA : ∀ s ∈ (A.map pyCapitalize).insertionSort (· ≤ ·), GoodCap s := by
        intro s hsm
        have hs2 := (List.perm_insertionSort (· ≤ ·) (A.map pyCapitalize)).mem_iff.mp hsm
        obtain ⟨t, ht, rfl⟩ := List.mem_map.mp hs2
        exact goodCap_pyCapitalize t (hAa t ht)
      have hgoodB : ∀ s ∈ (B.map pyCapitalize).insertionSort (· ≤ ·), GoodCap s := by
        intro s hsm
        have hs2 := (List.perm_insertionSort (· ≤ ·) (B.map pyCapitalize)).mem_iff.mp hsm
        obtain ⟨t, ht, rfl⟩ := List.mem_map.mp hs2
        exact goodCap_pyCapitalize t (hBa t ht)
      have hsorted := flatten_inj _ _ hgoodA hgoodB heq
      have hperm : (A.map pyCapitalize).Perm (B.map pyCapitalize) :=
        ((List.perm_insertionSort (· ≤ ·) (A.map pyCapitalize)).symm.trans
          (hsorted ▸ List.perm_insertionSort (· ≤ ·) (B.map pyCapitalize)))
      have hfold : (A.map pyLower).Perm (B.map pyLower) := by
        have h2 := hperm.map pyLower
        rw [List.map_map, List.map_map] at h2
        have e1 : A.map (pyLower ∘ pyCapitalize) = A.map pyLower :=
          List.map_congr_left (fun t _ => pyLower_pyCapitalize t)
        have e2 : B.map (pyLower ∘ pyCapitalize) = B.map pyLower :=
          List.map_congr_left (fun t _ => pyLower_pyCapitalize t)
        rw [e1, e2] at h2
        exact h2
      exact fun t => hfold.mem_iff
    · intro hmem
      have hfold : (A.map pyLower).Perm (B.map pyLower) :=
        (List.perm_ext_iff_of_nodup hAnd hBnd).mpr hmem
      have hcaps : (A.map pyCapitalize).Perm (B.map pyCapitalize) := by
        rw [map_pyCapitalize_eq A hAa, map_pyCapitalize_eq B hBa]
        exact hfold.map upperFirst
      rw [sortStr_eq_of_perm hcaps]
  · intro t u
    constructor
    · intro h
      exact h
    · intro h
      rw [h]

/-- C4 (witness): the amended theorem applied at concrete multi-tag lists in
different order and casing, and at a concrete singleton. -/
theorem claim_C4_witness :
    hash_concepts [S "Food", S "Drink"] = hash_concepts [S "drink", S "FOOD"] ∧
    hash_concepts [S "Tag"] = hash_concepts [S "Tag"] := by
  constructor
  · have e1 : ([S "Food", S "Drink"].map pyLower) = [S "food", S "drink"] := by decide
    have e2 : ([S "drink", S "FOOD"].map pyLower) = [S "drink", S "food"] := by decide
    refine (claim_C4_amended.1 [S "Food", S "Drink"] [S "drink", S "FOOD"] (by decide)
      (by decide) (by decide) (by decide) (by decide) (by decide)).mpr ?_
    intro t
    rw [e1, e2]
    simp only [List.mem_cons, List.mem_singleton]
    tauto
  · exact (claim_C4_amended.2 (S "Tag") (S "Tag")).mpr rfl

/-- C7: on two pages sharing one title, load_memory_files of
src/link-memories-single-line-web.py reaches its duplicate-title branch,
whose diagnostic evaluates the undefined bare name forward_links; the load
raises NameError instead of logging non-fatally and retaining both pages. -/
theorem claim_C7_theorem :
    loadWebPages [⟨S "g1", S "T", [S "x"]⟩, ⟨S "g2", S "T", [S "y"]⟩] ⟨[], [], [], []⟩ =
      .error .nameError_forward_links := rfl

/-- C2: on a corpus with pages tagged a,b and a, the first symlink run from
an empty destination succeeds and ensures the subconcept bridge symlink
a/b -> ../AB; the second run over the unchanged tree is not write-free: it
performs exactly one filesystem write, deleting that still-required bridge
symlink, because the concept loop never removes subconcept symlinks from the
old-files snapshot. -/
theorem claim_C2_theorem :
    runSym1 = .ok (fsAfter runSym1, logOf runSym1) ∧
    Act.symlink [S "mem", S "symlink", S "a", S "b"] (S "../AB") ∈ logOf runSym1 ∧
    runSym2 = .ok (fsAfter runSym2, [Act.unlink [S "mem", S "symlink", S "a", S "b"]]) := by
  exact ⟨rfl, by decide, rfl⟩

theorem lookupH_append_of_isSome {k : Str} {st : HSt} (l : HSt)
    (h : (lookupH k st).isSome) : lookupH k (st ++ l) = lookupH k st := by
  induction st with
  | nil => simp [lookupH] at h
  | cons e rest ih =>
    by_cases hk : e.1 = k
    · simp [lookupH, hk]
    · simp only [lookupH, hk, if_false, List.cons_append] at h ⊢
      exact ih h

theorem lookupH_append_new {k : Str} {st : HSt} (n : HNode)
    (h : lookupH k st = none) : lookupH k (st ++ [(k, n)]) = some n := by
  induction st with
  | nil => simp [lookupH]
  | cons e rest ih =>
    by_cases hk : e.1 = k
    · simp [lookupH, hk] at h
    · simp only [lookupH, hk, if_false, List.cons_append] at h ⊢
      exact ih h

theorem lookupH_modify (k k0 : Str) (f : HNode → HNode) (st : HSt) :
    lookupH k (modifyH k0 f st) =
      if k0 = k then (lookupH k st).map f else lookupH k st := by
  induction st with
  | nil => simp [lookupH, modifyH]
  | cons e rest ih =>
    obtain ⟨a, t⟩ := e
    by_cases h0 : a = k0
    · subst h0
      by_cases hk : a = k
      · subst hk
        simp [lookupH, modifyH]
      · simp [lookupH, modifyH, hk]
    · by_cases hk : a = k
      · subst hk
        have hk0 : ¬(k0 = a) := fun h => h0 h.symm
        simp [lookupH, modifyH, h0, hk0]
      · simp [lookupH, modifyH, h0, hk, ih]

theorem lookupH_getOrCreateH_self (c : List Str) (st : HSt) :
    (lookupH (hash_concepts c) (getOrCreateH c st)).isSome := by
  unfold getOrCreateH
  cases hl : lookupH (hash_concepts c) st with
  | some t => simp [hl]
  | none =>
    simp only [Option.isSome_none, Bool.false_eq_true, if_false]
    rw [lookupH_append_new _ hl]
    rfl

theorem hPagesMono_refl (st : HSt) : HPagesMono st st :=
  fun _ n h => ⟨n, h, fun _ hp => hp⟩

theorem hPagesMono_trans {s1 s2 s3 : HSt} (h12 : HPagesMono s1 s2) (h23 : HPagesMono s2 s3) :
    HPagesMono s1 s3 := by
  intro k n h
  obtain ⟨n2, h2, hs2⟩ := h12 k n h
  obtain ⟨n3, h3, hs3⟩ := h23 k n2 h2
  exact ⟨n3, h3, fun p hp => hs3 p (hs2 p hp)⟩

theorem hPagesMono_getOrCreateH (c : List Str) (st : HSt) : HPagesMono st (getOrCreateH c st) := by
  intro k n h
  unfold getOrCreateH
  cases hc : (lookupH (hash_concepts c) st).isSome with
  | true => simp only [if_pos rfl]; exact ⟨n, h, fun _ hp => hp⟩
  | false =>
    simp only [Bool.false_eq_true, if_false]
    rw [lookupH_append_of_isSome _ (by simp [h])]
    exact ⟨n, h, fun _ hp => hp⟩

theorem hPagesMono_modifyH (k0 : Str) (f : HNode → HNode)
    (hf : ∀ n p, p ∈ n.pages → p ∈ (f n).pages) (st : HSt) :
    HPagesMono st (modifyH k0 f st) := by
  intro k n h
  rw [lookupH_modify]
  by_cases hk : k0 = k
  · exact ⟨f n, by simp [hk, h], fun p hp => hf n p hp⟩
  · exact ⟨n, by simp [hk, h], fun _ hp => hp⟩

theorem hPagesMono_addPageH (k0 : Str) (p : HPage) (st : HSt) :
    HPagesMono st (addPageH k0 p st) := by
  apply hPagesMono_modifyH
  intro n q hq
  by_cases hp : p ∈ n.pages <;> simp [hp, hq]

theorem hPagesMono_addSubH (k0 ck : Str) (st : HSt) : HPagesMono st (addSubH k0 ck st) := by
  apply hPagesMono_modifyH
  intro n q hq
  by_cases hc : ck ∈ n.subconcepts <;> simp [hc, hq]

theorem hPagesMono_foldl {β : Type} (f : HSt → β → HSt)
    (hf : ∀ st c, HPagesMono st (f st c)) :
    ∀ (l : List β) (st : HSt), HPagesMono st (l.foldl f st) := by
  intro l
  induction l with
  | nil => intro st; exact hPagesMono_refl st
  | cons c rest ih =>
    intro st
    rw [List.foldl_cons]
    exact hPagesMono_trans (hf st c) (ih (f st c))

theorem hPagesMono_recurseH : ∀ (fuel : Nat) (k : Str) (st : HSt),
    HPagesMono st (recurseH fuel k st) := by
  intro fuel
  induction fuel with
  | zero => intro k st; exact hPagesMono_refl st
  | succ fuel ih =>
    intro k st
    unfold recurseH
    cases lookupH k st with
    | none => exact hPagesMono_refl st
    | some main =>
      dsimp only
      by_cases hd : main.concepts.length - 1 > 0
      · simp only [hd, if_true]
        apply hPagesMono_foldl
        intro st1 comb
        dsimp only
        by_cases hs : (lookupH (hash_concepts comb) st1).isSome
        · simp only [hs, if_true]
          by_cases h1 : main.concepts.length - 1 > 1
          · simp only [h1, if_true]
            exact hPagesMono_trans (hPagesMono_addSubH _ _ _) (ih _ _)
          · simp only [h1, if_false]
            exact hPagesMono_addSubH _ _ _
        · simp only [hs, Bool.false_eq_true, if_false]
          exact hPagesMono_refl st1
      · simp only [hd, if_false]
        exact hPagesMono_refl st

theorem hPagesMono_loadPagesH (pages : List HPage) (st : HSt) :
    HPagesMono st (loadPagesH pages st) := by
  unfold loadPagesH
  apply hPagesMono_foldl
  intro st1 p
  exact hPagesMono_trans (hPagesMono_getOrCreateH _ _) (hPagesMono_addPageH _ _ _)

theorem addPageH_mem {k : Str} (p : HPage) {st : HSt}
    (h : (lookupH k st).isSome) :
    ∃ n, lookupH k (addPageH k p st) = some n ∧ p ∈ n.pages := by
  cases hl : lookupH k st with
  | none => rw [hl] at h; simp at h
  | some n0 =>
    unfold addPageH
    rw [lookupH_modify]
    simp only [if_pos rfl, hl, Option.map_some]
    refine ⟨_, rfl, ?_⟩
    by_cases hp : p ∈ n0.pages <;> simp [hp]

theorem loadPagesH_mem :
    ∀ (pages : List HPage) (st : HSt) (p : HPage), p ∈ pages →
      ∃ n, lookupH (hash_concepts p.concepts) (loadPagesH pages st) = some n ∧ p ∈ n.pages := by
  intro pages
  induction pages with
  | nil => intro st p hp; simp at hp
  | cons q rest ih =>
    intro st p hp
    have hstep : loadPagesH (q :: rest) st =
        loadPagesH rest (addPageH (hash_concepts q.concepts) q (getOrCreateH q.concepts st)) := by
      unfold loadPagesH
      rw [List.foldl_cons]
    rw [hstep]
    cases List.mem_cons.mp hp with
    | inr h => exact ih _ p h
    | inl h =>
      subst h
      obtain ⟨n, hn, hpn⟩ := addPageH_mem p (lookupH_getOrCreateH_self p.concepts st)
      obtain ⟨n', hn', hsub⟩ := hPagesMono_loadPagesH rest _ _ n hn
      exact ⟨n', hn', hsub p hpn⟩

theorem buildH_mem :
    ∀ (fuel : Nat) (pages : List HPage) (p : HPage), p ∈ pages →
      ∃ n, lookupH (hash_concepts p.concepts) (buildH fuel pages) = some n ∧ p ∈ n.pages := by
  intro fuel pages p hp
  unfold buildH
  obtain ⟨n, hn, hpn⟩ := loadPagesH_mem pages [] p hp
  obtain ⟨n', hn', hsub⟩ :=
    hPagesMono_foldl (fun st k => recurseH fuel k st)
      (fun st k => hPagesMono_recurseH fuel k st) _ _ _ n hn
  exact ⟨n', hn', hsub p hpn⟩

theorem createDirF_dirs (fs : Fs) (log : List Act) (p : List Str) :
    fs.dirs ⊆ (createDirF fs log p).1.dirs := by
  unfold createDirF
  split
  · exact fun d hd => hd
  · exact List.subset_append_left _ _

theorem createSymlinkF_dirs (fs : Fs) (log : List Act) (p : List Str) (t : Str) :
    (createSymlinkF fs log p t).1.dirs = fs.dirs := by
  unfold createSymlinkF
  split <;> rfl

theorem removeLinkF_dirs (fs : Fs) (p : List Str) : (removeLinkF fs p).dirs = fs.dirs := rfl

theorem processSubH_dirs {st : HSt} {symdir cdir : List Str} {n : HNode} {acc : SymSt}
    {ck : Str} {acc' : SymSt}
    (h : processSubH st symdir cdir n acc ck = .ok acc') : acc.fs.dirs ⊆ acc'.fs.dirs := by
  unfold processSubH at h
  dsimp only at h
  split at h
  · cases h
  · injection h with h
    subst h
    intro d hd
    have h1 := createDirF_dirs acc.fs acc.log (symdir ++ [ck]) hd
    show d ∈ (createSymlinkF _ _ _ _).1.dirs
    rw [createSymlinkF_dirs]
    exact h1

theorem processSubsH_dirs {st : HSt} {symdir cdir : List Str} {n : HNode} :
    ∀ {cks : List Str} {acc acc' : SymSt},
      processSubsH st symdir cdir n cks acc = .ok acc' → acc.fs.dirs ⊆ acc'.fs.dirs := by
  intro cks
  induction cks with
  | nil =>
    intro acc acc' h
    injection h with h
    subst h
    exact fun d hd => hd
  | cons ck rest ih =>
    intro acc acc' h
    unfold processSubsH at h
    split at h
    · cases h
    · next acc1 heq =>
      exact fun d hd => ih h (processSubH_dirs heq hd)

theorem processPageSymH_dirs (memDir cdir : List Str) (acc : SymSt) (p : HPage) :
    (processPageSymH memDir cdir acc p).fs.dirs = acc.fs.dirs := by
  unfold processPageSymH
  rw [createSymlinkF_dirs]

theorem pagesFold_dirs (memDir cdir : List Str) :
    ∀ (ps : List HPage) (acc : SymSt),
      (ps.foldl (processPageSymH memDir cdir) acc).fs.dirs = acc.fs.dirs := by
  intro ps
  induction ps with
  | nil => intro acc; rfl
  | cons p rest ih =>
    intro acc
    rw [List.foldl_cons, ih, processPageSymH_dirs]

theorem processConceptH_dirs {st : HSt} {memDir symdir : List Str} {acc : SymSt}
    {k : Str} {n : HNode} {acc' : SymSt}
    (h : processConceptH st memDir symdir acc k n = .ok acc') : acc.fs.dirs ⊆ acc'.fs.dirs := by
  unfold processConceptH at h
  dsimp only at h
  split at h
  · cases h
  · next acc2 heq =>
    injection h with h
    subst h
    intro d hd
    rw [pagesFold_dirs]
    exact processSubsH_dirs heq (createDirF_dirs acc.fs acc.log _ hd)

theorem processConceptsH_dirs {st : HSt} {memDir symdir : List Str} :
    ∀ {l : List (Str × HNode)} {acc acc' : SymSt},
      processConceptsH st memDir symdir l acc = .ok acc' → acc.fs.dirs ⊆ acc'.fs.dirs := by
  intro l
  induction l with
  | nil =>
    intro acc acc' h
    injection h with h
    subst h
    exact fun d hd => hd
  | cons e rest ih =>
    intro acc acc' h
    obtain ⟨k, n⟩ := e
    unfold processConceptsH at h
    split at h
    · cases h
    · next acc1 heq =>
      exact fun d hd => ih h (processConceptH_dirs heq hd)

theorem cleanupF_dirs :
    ∀ (entries : List (List Str)) (fs : Fs) (log : List Act) (fs2 : Fs) (log2 : List Act),
      cleanupF entries fs log = .ok (fs2, log2) → fs2.dirs = fs.dirs := by
  intro entries
  induction entries with
  | nil =>
    intro fs log fs2 log2 h
    injection h with h
    rw [show fs2 = fs from congrArg Prod.fst h.symm]
  | cons p rest ih =>
    intro fs log fs2 log2 h
    unfold cleanupF at h
    split at h
    · rw [ih _ _ _ _ h, removeLinkF_dirs]
    · split at h
      · split at h
        · cases h
        · exact ih _ _ _ _ h
      · exact ih _ _ _ _ h

/-- C10: in create_symlinks of src/hdm.py, whenever the cleanup loop reaches
a snapshot entry that is not a link but is an empty directory, it evaluates
shutil.rmtree with shutil never imported, raising NameError; consequently no
completed cleanup ever deletes a directory, and a completed materializer run
preserves every pre-existing directory. -/
theorem claim_C10_theorem :
    (∀ (p : List Str) (rest : List (List Str)) (fs : Fs) (log : List Act),
        isLinkF fs p = false → isDirF fs p = true → dirEmptyF fs p = true →
        cleanupF (p :: rest) fs log = .error .nameError_shutil) ∧
    (∀ (entries : List (List Str)) (fs : Fs) (log : List Act) (fs2 : Fs) (log2 : List Act),
        cleanupF entries fs log = .ok (fs2, log2) → fs2.dirs = fs.dirs) ∧
    (∀ (st : HSt) (memDir : List Str) (fs0 fs2 : Fs) (log2 : List Act),
        create_symlinks_model st memDir fs0 = .ok (fs2, log2) → fs0.dirs ⊆ fs2.dirs) := by
  refine ⟨?_, cleanupF_dirs, ?_⟩
  · intro p rest fs log h1 h2 h3
    unfold cleanupF
    simp [h1, h2, h3]
  · intro st memDir fs0 fs2 log2 h
    unfold create_symlinks_model at h
    dsimp only at h
    split at h
    · cases h
    · next acc heq =>
      rw [cleanupF_dirs _ _ _ _ _ h]
      intro d hd
      exact processConceptsH_dirs heq (createDirF_dirs fs0 [] _ hd)

/-- C10 (witness): the theorem applied at a concrete stale empty directory,
a concrete completed cleanup, and a concrete completed run. -/
theorem claim_C10_witness :
    cleanupF [[S "x", S "d"]] ⟨[[S "x"], [S "x", S "d"]], []⟩ [] =
      .error .nameError_shutil ∧
    Fs.dirs ⟨[[S "q"]], []⟩ = Fs.dirs ⟨[[S "q"]], []⟩ ∧
    Fs.dirs ⟨[[S "z"]], []⟩ ⊆ Fs.dirs ⟨[[S "z"], [S "m", S "symlink"]], []⟩ := by
  refine ⟨?_, ?_, ?_⟩
  · exact claim_C10_theorem.1 [S "x", S "d"] [] ⟨[[S "x"], [S "x", S "d"]], []⟩ []
      (by decide) (by decide) (by decide)
  · exact claim_C10_theorem.2.1 [] ⟨[[S "q"]], []⟩ [] ⟨[[S "q"]], []⟩ [] rfl
  · exact claim_C10_theorem.2.2 [] [S "m"] ⟨[[S "z"]], []⟩
      ⟨[[S "z"], [S "m", S "symlink"]], []⟩ [Act.mkdir [S "m", S "symlink"]] rfl

theorem setDiff_mem {a b : List Str} {l : Str} (h : l ∈ setDiff a b) :
    l ∈ a ∧ ¬l ∈ b := by
  unfold setDiff at h
  have h2 := List.mem_dedup.mp h
  have h3 := List.mem_filter.mp h2
  exact ⟨h3.1, of_decide_eq_true h3.2⟩

theorem subLines_cons_ok {st : HSt} {webdir : List Str} {n : HNode} {ck : Str}
    {rest : List Str} {out : List Str}
    (h : subLines st webdir n (ck :: rest) = .ok out) :
    ∃ l tl out2,
      setDiff ((lookupH ck st).getD ⟨[], [], []⟩).concepts n.concepts = l :: tl ∧
      subLines st webdir n rest = .ok out2 ∧
      out = subconceptLine l (relPath (webdir ++ [ck ++ mdExt]) webdir) :: out2 := by
  unfold subLines at h
  dsimp only at h
  rcases hd : setDiff ((lookupH ck st).getD ⟨[], [], []⟩).concepts n.concepts with _ | ⟨l, tl⟩ <;>
    rw [hd] at h <;> dsimp only at h
  · cases h
  · rcases h2 : subLines st webdir n rest with e | out2 <;> rw [h2] at h <;> dsimp only at h
    · cases h
    · injection h with h
      exact ⟨l, tl, out2, rfl, rfl, h.symm⟩

theorem subLines_ok_iff (st : HSt) (webdir : List Str) (n : HNode) :
    ∀ (cks : List Str),
      (∃ out, subLines st webdir n cks = .ok out) ↔
      ∀ ck ∈ cks, setDiff ((lookupH ck st).getD ⟨[], [], []⟩).concepts n.concepts ≠ [] := by
  intro cks
  induction cks with
  | nil =>
    constructor
    · intro _ ck h; cases h
    · intro _; exact ⟨[], rfl⟩
  | cons ck rest ih =>
    constructor
    · rintro ⟨out, hout⟩ ck2 hck2
      obtain ⟨l, tl, out2, hd, h2, _⟩ := subLines_cons_ok hout
      cases List.mem_cons.mp hck2 with
      | inl he => subst he; rw [hd]; simp
      | inr he => exact (ih.mp ⟨out2, h2⟩) ck2 he
    · intro hall
      cases hd : setDiff ((lookupH ck st).getD ⟨[], [], []⟩).concepts n.concepts with
      | nil => exact absurd hd (hall ck (List.mem_cons_self ck rest))
      | cons l tl =>
        obtain ⟨out2, h2⟩ := ih.mpr (fun c hc => hall c (List.mem_cons_of_mem ck hc))
        refine ⟨subconceptLine l (relPath (webdir ++ [ck ++ mdExt]) webdir) :: out2, ?_⟩
        unfold subLines
        dsimp only
        rw [hd]
        dsimp only
        rw [h2]

theorem tfold_mem {f : List Str → Except PyErr (List TAct)} :
    ∀ {combos : List (List Str)} {out : List TAct},
      tfold f combos = .ok out → ∀ a ∈ out, ∃ c ∈ combos, ∃ oc, f c = .ok oc ∧ a ∈ oc := by
  intro combos
  induction combos with
  | nil =>
    intro out h a ha
    injection h with h
    subst h
    cases ha
  | cons c rest ih =>
    intro out h a ha
    unfold tfold at h
    rcases hc : f c with e | oc <;> rw [hc] at h <;> dsimp only at h
    · cases h
    · rcases hr : tfold f rest with e | orest <;> rw [hr] at h <;> dsimp only at h
      · cases h
      · injection h with h
        subst h
        rcases List.mem_append.mp ha with h1 | h2
        · exact ⟨c, List.mem_cons_self c rest, oc, hc, h1⟩
        · obtain ⟨c2, hc2, oc2, hfc2, ha2⟩ := ih hr a h2
          exact ⟨c2, List.mem_cons_of_mem _ hc2, oc2, hfc2, ha2⟩

theorem tstep_mem {mfile mtitle : Str} {dest : List Str} {depth : Nat}
    {threads comb : List Str} {oc : List TAct}
    (h : tstep mfile mtitle dest depth threads comb = .ok oc) :
    ∃ path : List Str,
      ((1 < depth ∧ path = dest ++ [MULTI_THREAD_DIR] ++ [create_hash_from_tags comb]) ∨
       (¬1 < depth ∧ ∃ t rest, comb = t :: rest ∧ path = dest ++ [THREAD_DIR] ++ [t])) ∧
      ∀ a ∈ oc,
        a = TAct.dir path ∨
        a = TAct.link (path ++ [mtitle ++ mdExt]) (S "../../" ++ MEMORY_DIR ++ [slash] ++ mfile) ∨
        ∃ lbl tl, setDiff threads comb = lbl :: tl ∧
          a = TAct.link (path ++ [lbl])
            (if 1 < depth then S "../../" ++ create_hash_from_tags threads
             else S "../../" ++ MULTI_THREAD_DIR ++ [slash] ++ create_hash_from_tags threads) := by
  unfold tstep at h
  dsimp only at h
  by_cases hd : depth > 1
  · rw [if_pos hd]
    simp only [hd, if_true] at h
    rcases hdf : setDiff threads comb with _ | ⟨lbl, tl⟩ <;> rw [hdf] at h <;> dsimp only at h
    · injection h with h
      subst h
      refine ⟨dest ++ [MULTI_THREAD_DIR] ++ [create_hash_from_tags comb], Or.inl ⟨hd, rfl⟩, ?_⟩
      intro a ha
      rcases List.mem_cons.mp ha with h1 | h1
      · exact Or.inl h1
      · rcases List.mem_cons.mp h1 with h2 | h2
        · exact Or.inr (Or.inl h2)
        · cases h2
    · injection h with h
      subst h
      refine ⟨dest ++ [MULTI_THREAD_DIR] ++ [create_hash_from_tags comb], Or.inl ⟨hd, rfl⟩, ?_⟩
      intro a ha
      rcases List.mem_append.mp ha with h1 | h1
      · rcases List.mem_cons.mp h1 with h2 | h2
        · exact Or.inl h2
        · rcases List.mem_cons.mp h2 with h3 | h3
          · exact Or.inr (Or.inl h3)
          · cases h3
      · rcases List.mem_cons.mp h1 with h2 | h2
        · exact Or.inr (Or.inr ⟨lbl, tl, rfl, h2⟩)
        · cases h2
  · rw [if_neg hd]
    simp only [hd, if_false] at h
    rcases hcomb : comb with _ | ⟨t, rest⟩ <;> rw [hcomb] at h <;> dsimp only at h
    · cases h
    · rcases hdf : setDiff threads (t :: rest) with _ | ⟨lbl, tl⟩ <;> rw [hdf] at h <;>
        dsimp only at h
      · injection h with h
        subst h
        refine ⟨dest ++ [THREAD_DIR] ++ [t], Or.inr ⟨hd, t, rest, rfl, rfl⟩, ?_⟩
        intro a ha
        rcases List.mem_cons.mp ha with h1 | h1
        · exact Or.inl h1
        · rcases List.mem_cons.mp h1 with h2 | h2
          · exact Or.inr (Or.inl h2)
          · cases h2
      · injection h with h
        subst h
        refine ⟨dest ++ [THREAD_DIR] ++ [t], Or.inr ⟨hd, t, rest, rfl, rfl⟩, ?_⟩
        intro a ha
        rcases List.mem_append.mp ha with h1 | h1
        · rcases List.mem_cons.mp h1 with h2 | h2
          · exact Or.inl h2
          · rcases List.mem_cons.mp h2 with h3 | h3
            · exact Or.inr (Or.inl h3)
            · cases h3
        · rcases List.mem_cons.mp h1 with h2 | h2
          · exact Or.inr (Or.inr ⟨lbl, tl, rfl, h2⟩)
          · cases h2

theorem thread_dir_ne_multi : ¬(MULTI_THREAD_DIR = THREAD_DIR) := by decide

/-- C8: the claim covers the symlink projection of src/hdm.py, but there
create_symlinks places every concept directory, multi-tag ones included,
flat inside the one non-hidden directory named symlink: on corpusAB the
multi-tag node`s directory and the single-tag node`s directory are created
in the same parent, whose name does not start with a dot, so multi-tag
combinations do not live under a secondary hidden directory. -/
theorem claim_C8_counterexample :
    Act.mkdir [S "mem", S "symlink", hash_concepts [S "a", S "b"]] ∈ logOf runSym1 ∧
    Act.mkdir [S "mem", S "symlink", S "a"] ∈ logOf runSym1 ∧
    hash_concepts [S "a", S "b"] ≠ S "a" ∧
    (S "symlink").head? = some 115 ∧ ¬((S "symlink").head? = some 46) := by
  exact ⟨by decide, by decide, by decide, by decide, by decide⟩

/-- C8 (amended): in src/link-memories.py every directory the recursion
ensures is either the hidden multi-thread directory entry for a combination
of at least two tags or a top-level single-tag entry of the thread
directory, and every symlink ensured inside a top-level single-tag directory
points either at the memory file or (bridging the two layers) at a
hash-named entry of the hidden multi-thread directory via a relative path;
the hdm.py symlink materializer instead uses one flat non-hidden directory
(see the counterexample). -/
theorem claim_C8_amended :
    ∀ (mfile mtitle : Str) (dest : List Str) (d : Nat) (threads : List Str) (out : List TAct),
      recurseThreadsL mfile mtitle dest d threads = .ok out →
      (∀ p, TAct.dir p ∈ out →
        (∃ c : List Str, 2 ≤ c.length ∧ p = dest ++ [MULTI_THREAD_DIR, create_hash_from_tags c]) ∨
        (∃ t : Str, p = dest ++ [THREAD_DIR, t])) ∧
      (∀ t x tgt : Str, TAct.link (dest ++ [THREAD_DIR, t, x]) tgt ∈ out →
        tgt = S "../../" ++ MEMORY_DIR ++ [slash] ++ mfile ∨
        ∃ hs, tgt = S "../../" ++ MULTI_THREAD_DIR ++ [slash] ++ hs) := by
  intro mfile mtitle dest d
  induction d with
  | zero =>
    intro threads out h
    exfalso
    unfold recurseThreadsL at h
    rw [List.sublistsLen_zero] at h
    unfold tfold at h
    have hts : tstep mfile mtitle dest 0 threads [] = .error .indexError := rfl
    rw [hts] at h
    dsimp only at h
    cases h
  | succ e ih =>
    intro threads out h
    rcases e with _ | e2
    · unfold recurseThreadsL at h
      constructor
      · intro p hp
        obtain ⟨c, hc, oc, hfc, hmem⟩ := tfold_mem h (TAct.dir p) hp
        obtain ⟨path, hpath, hall⟩ := tstep_mem hfc
        rcases hpath with ⟨h1, _⟩ | ⟨_, t, rest, hcomb, hpathEq⟩
        · exact absurd h1 (by omega)
        · rcases hall _ hmem with h1 | h1 | ⟨lbl, tl, hdiff, h1⟩
          · right
            refine ⟨t, ?_⟩
            injection h1 with h1
            rw [h1, hpathEq]
            simp
          · exact absurd h1 (fun hh => TAct.noConfusion hh)
          · exact absurd h1 (fun hh => TAct.noConfusion hh)
      · intro t x tgt hp
        obtain ⟨c, hc, oc, hfc, hmem⟩ := tfold_mem h _ hp
        obtain ⟨path, hpath, hall⟩ := tstep_mem hfc
        rcases hpath with ⟨h1, _⟩ | ⟨_, t', rest', hcomb, hpathEq⟩
        · exact absurd h1 (by omega)
        · rcases hall _ hmem with h1 | h1 | ⟨lbl, tl, hdiff, h1⟩
          · exact absurd h1 (fun hh => TAct.noConfusion hh)
          · left
            injection h1 with hq htgt
          · right
            injection h1 with hq htgt
            rw [htgt, if_neg (by omega)]
            exact ⟨create_hash_from_tags threads, rfl⟩
    · unfold recurseThreadsL at h
      constructor
      · intro p hp
        obtain ⟨c, hc, oc, hfc, hmem⟩ := tfold_mem h _ hp
        rcases hts : tstep mfile mtitle dest (e2 + 1 + 1) threads c with e | a1 <;>
          rw [hts] at hfc <;> dsimp only at hfc
        · cases hfc
        · rcases hrec : recurseThreadsL mfile mtitle dest (e2 + 1) c with e | b1 <;>
            rw [hrec] at hfc <;> dsimp only at hfc
          · cases hfc
          · injection hfc with hfc
            subst hfc
            rcases List.mem_append.mp hmem with hm | hm
            · obtain ⟨path, hpath, hall⟩ := tstep_mem hts
              rcases hpath with ⟨_, hpathEq⟩ | ⟨hno, _⟩
              · rcases hall _ hm with h1 | h1 | ⟨lbl, tl, hdiff, h1⟩
                · left
                  have hlen : c.length = e2 + 1 + 1 := (List.mem_sublistsLen.mp hc).2
                  refine ⟨c, by omega, ?_⟩
                  injection h1 with h1
                  rw [h1, hpathEq]
                  simp
                · exact absurd h1 (fun hh => TAct.noConfusion hh)
                · exact absurd h1 (fun hh => TAct.noConfusion hh)
              · exact absurd (by omega : 1 < e2 + 1 + 1) hno
            · exact (ih c b1 hrec).1 p hm
      · intro t x tgt hp
        obtain ⟨c, hc, oc, hfc, hmem⟩ := tfold_mem h _ hp
        rcases hts : tstep mfile mtitle dest (e2 + 1 + 1) threads c with e | a1 <;>
          rw [hts] at hfc <;> dsimp only at hfc
        · cases hfc
        · rcases hrec : recurseThreadsL mfile mtitle dest (e2 + 1) c with e | b1 <;>
            rw [hrec] at hfc <;> dsimp only at hfc
          · cases hfc
          · injection hfc with hfc
            subst hfc
            rcases List.mem_append.mp hmem with hm | hm
            · exfalso
              obtain ⟨path, hpath, hall⟩ := tstep_mem hts
              rcases hpath with ⟨_, hpathEq⟩ | ⟨hno, _⟩
              · rcases hall _ hm with h1 | h1 | ⟨lbl, tl, hdiff, h1⟩
                · exact TAct.noConfusion h1
                · injection h1 with hq htgt
                  rw [hpathEq] at hq
                  have h2 : ([THREAD_DIR, t, x] : List Str) =
                      [MULTI_THREAD_DIR, create_hash_from_tags c, mtitle ++ mdExt] := by
                    simpa using hq
                  injection h2 with hTM _
                  exact thread_dir_ne_multi hTM.symm
                · injection h1 with hq htgt
                  rw [hpathEq] at hq
                  have h2 : ([THREAD_DIR, t, x] : List Str) =
                      [MULTI_THREAD_DIR, create_hash_from_tags c, lbl] := by
                    simpa using hq
                  injection h2 with hTM _
                  exact thread_dir_ne_multi hTM.symm
              · exact absurd (by omega : 1 < e2 + 1 + 1) hno
            · exact (ih c b1 hrec).2 t x tgt hm

/-- C8 (witness): the amended theorem applied at a concrete recursion over
two tags, for a concrete multi-tag directory and a concrete bridge link. -/
theorem claim_C8_witness :
    ((∃ c : List Str, 2 ≤ c.length ∧
        [S "dst"] ++ [MULTI_THREAD_DIR] ++ [create_hash_from_tags [S "a", S "b"]] =
          [S "dst"] ++ [MULTI_THREAD_DIR, create_hash_from_tags c]) ∨
      (∃ t : Str,
        [S "dst"] ++ [MULTI_THREAD_DIR] ++ [create_hash_from_tags [S "a", S "b"]] =
          [S "dst"] ++ [THREAD_DIR, t])) ∧
    ((S "../../.symlinks/" ++ create_hash_from_tags [S "a", S "b"]) =
        S "../../" ++ MEMORY_DIR ++ [slash] ++ S "g1.md" ∨
      ∃ hs, (S "../../.symlinks/" ++ create_hash_from_tags [S "a", S "b"]) =
        S "../../" ++ MULTI_THREAD_DIR ++ [slash] ++ hs) := by
  constructor
  · exact (claim_C8_amended (S "g1.md") (S "a b One") [S "dst"] 2 [S "a", S "b"] _ rfl).1
      ([S "dst"] ++ [MULTI_THREAD_DIR] ++ [create_hash_from_tags [S "a", S "b"]]) (by decide)
  · exact (claim_C8_amended (S "g1.md") (S "a b One") [S "dst"] 2 [S "a", S "b"] _ rfl).2
      (S "b") (S "a") (S "../../.symlinks/" ++ create_hash_from_tags [S "a", S "b"]) (by decide)

/-- C5: the claim asserts that a non-singleton parent-minus-child difference
makes the materializer surface an internal-consistency failure and abort that
node`s materialization; on a reachable corpus (a page tagged a,b,c and a page
tagged A,B, whose keys collide after capitalization) the stored difference
has three elements, yet write_web_markdown_files completes and silently
labels the entry with the difference`s first element. -/
theorem claim_C5_counterexample :
    (setDiff [S "a", S "b", S "c"] [S "A", S "B"]).length = 3 ∧
    (lookupH (S "AB") builtCase).map HNode.subconcepts = some [S "ABC"] ∧
    (lookupH (S "AB") builtCase).map HNode.concepts = some [S "A", S "B"] ∧
    (lookupH (S "ABC") builtCase).map HNode.concepts = some [S "a", S "b", S "c"] ∧
    writeWebH builtCase [S "mem"] =
      .ok [([S "mem", S "web", S "ABC.md"],
             [S "# a b c", pageLine (S "*a* *b* *c* One") (S "../p1.md")]),
           ([S "mem", S "web", S "AB.md"],
             [S "# A B", subconceptLine (S "a") (S "ABC.md"),
              pageLine (S "*A* *B* Two") (S "../p2.md")])] := by
  exact ⟨by decide, by decide, by decide, by decide, rfl⟩

/-- C5 (amended): every emitted parent/child entry is labelled with the
first element of the set difference parent minus child (an element of the
parent`s tags absent from the child`s); the materializer performs no
singleton check — it aborts (with IndexError) exactly when some difference
is empty, and in particular completes normally on non-singleton
differences. -/
theorem claim_C5_amended :
    (∀ (a b : List Str) (l : Str), l ∈ setDiff a b → l ∈ a ∧ ¬l ∈ b) ∧
    (∀ (st : HSt) (webdir : List Str) (n : HNode) (ck : Str) (rest : List Str) (out : List Str),
        subLines st webdir n (ck :: rest) = .ok out →
        ∃ l tl out2,
          setDiff ((lookupH ck st).getD ⟨[], [], []⟩).concepts n.concepts = l :: tl ∧
          subLines st webdir n rest = .ok out2 ∧
          out = subconceptLine l (relPath (webdir ++ [ck ++ mdExt]) webdir) :: out2) ∧
    (∀ (st : HSt) (webdir : List Str) (n : HNode) (cks : List Str),
        (∃ out, subLines st webdir n cks = .ok out) ↔
        ∀ ck ∈ cks, setDiff ((lookupH ck st).getD ⟨[], [], []⟩).concepts n.concepts ≠ []) := by
  exact ⟨fun a b l h => setDiff_mem h,
    fun st webdir n ck rest out h => subLines_cons_ok h,
    subLines_ok_iff⟩

/-- C5 (witness): the amended theorem applied at concrete differences and a
concrete materialization. -/
theorem claim_C5_witness :
    (S "b" ∈ [S "b", S "c"] ∧ ¬S "b" ∈ [S "c"]) ∧
    (∃ l tl out2,
      setDiff ((lookupH (S "K") [(S "K", (⟨[S "x"], [], []⟩ : HNode))]).getD
          ⟨[], [], []⟩).concepts (⟨[], [], []⟩ : HNode).concepts = l :: tl ∧
      subLines [(S "K", (⟨[S "x"], [], []⟩ : HNode))] [] ⟨[], [], []⟩ [] = .ok out2 ∧
      [subconceptLine (S "x") (S "K.md")] =
        subconceptLine l (relPath ([] ++ [S "K" ++ mdExt]) []) :: out2) ∧
    (∃ out, subLines [] [] (⟨[], [], []⟩ : HNode) [] = .ok out) := by
  refine ⟨?_, ?_, ?_⟩
  · exact claim_C5_amended.1 [S "b", S "c"] [S "c"] (S "b") (by decide)
  · exact claim_C5_amended.2.1 [(S "K", ⟨[S "x"], [], []⟩)] [] ⟨[], [], []⟩ (S "K") []
      [subconceptLine (S "x") (S "K.md")] rfl
  · exact (claim_C5_amended.2.2 [] [] ⟨[], [], []⟩ []).mpr (fun ck h => by cases h)

/-- C6: the claim asserts an untagged page contributes zero lattice nodes and
appears in neither output; in the code a one-page untagged corpus builds
exactly one node (keyed by the empty string), and the page appears both in
the index-document output (the concept file named .md) and in the symlink
output (a title-named link directly under the symlink root). -/
theorem claim_C6_counterexample :
    ¬(builtUntagged.length = 0) ∧
    builtUntagged = [([], ⟨[], [], [⟨S "p1", S "Untagged note", []⟩]⟩)] ∧
    writeWebH builtUntagged [S "mem"] =
      .ok [([S "mem", S "web", mdExt], [S "# ", pageLine (S "Untagged note") (S "../p1.md")])] ∧
    [S "mem", S "symlink", S "Untagged note.md"] ∈
      (fsAfter (create_symlinks_model builtUntagged [S "mem"] ⟨[], []⟩)).links.map Prod.fst := by
  exact ⟨by decide, rfl, rfl, by decide⟩

/-- C6 (amended): every page whose title yields an empty tag set is recorded
in the corpus attached to the single empty-tag-set node, whose key is the
empty string (it is obtained-or-created, not skipped), and the page appears
in both the index-document output and the symlink-tree output. -/
theorem claim_C6_amended :
    (∀ (fuel : Nat) (pages : List HPage) (p : HPage), p ∈ pages → p.concepts = [] →
        ∃ n, lookupH [] (buildH fuel pages) = some n ∧ p ∈ n.pages) ∧
    builtUntagged = [([], ⟨[], [], [⟨S "p1", S "Untagged note", []⟩]⟩)] ∧
    writeWebH builtUntagged [S "mem"] =
      .ok [([S "mem", S "web", mdExt], [S "# ", pageLine (S "Untagged note") (S "../p1.md")])] ∧
    [S "mem", S "symlink", S "Untagged note.md"] ∈
      (fsAfter (create_symlinks_model builtUntagged [S "mem"] ⟨[], []⟩)).links.map Prod.fst := by
  refine ⟨?_, rfl, rfl, by decide⟩
  intro fuel pages p hp hc
  have h := buildH_mem fuel pages p hp
  rw [hc] at h
  exact h

/-- C6 (witness): the amended theorem applied at the concrete untagged
corpus. -/
theorem claim_C6_witness :
    ∃ n, lookupH [] (buildH 5 corpusUntagged) = some n ∧
      (⟨S "p1", S "Untagged note", []⟩ : HPage) ∈ n.pages := by
  exact claim_C6_amended.1 5 corpusUntagged ⟨S "p1", S "Untagged note", []⟩
    (by decide) (by decide)

/-- C3: rebuilding over the prior tree plus one stale page link deletes the
stale link, but not only it: the still-required subconcept bridge symlink
a/b (present in the destination and ensured by the same graph) is deleted
too, because confirmed subconcept links are never removed from the deletion
snapshot. -/
theorem claim_C3_theorem :
    isLinkF fsStale [S "mem", S "symlink", S "a", S "Gone.md"] = true ∧
    isLinkF fsStale [S "mem", S "symlink", S "a", S "b"] = true ∧
    Act.symlink [S "mem", S "symlink", S "a", S "b"] (S "../AB") ∈ logOf runSym1 ∧
    runSymStale = .ok (fsAfter runSymStale,
      [Act.unlink [S "mem", S "symlink", S "a", S "Gone.md"],
       Act.unlink [S "mem", S "symlink", S "a", S "b"]]) := by
  exact ⟨by decide, by decide, by decide, rfl⟩

end DHM
